import Mathlib

/-!
Verification development for the rust-grad reverse-mode automatic
differentiation engine (src/graph.rs, src/tensor.rs, src/functions.rs).

The Rust code is shallowly embedded as follows:

* `f32` values are idealised as exact rationals `ℚ`; the scalar exponential
  used by `ExpM::forward` is kept abstract as a parameter `expS : ℚ → ℚ`.
* The host backend `Array<f32, IxDyn>` is modelled by `NdArr`: a dynamic
  shape together with row-major flattened data, exactly as `ndarray` stores
  it.  Elementwise operations require equal shapes (the claims never exercise
  `ndarray`'s broadcasting).
* Rust panics (`unwrap`, `expect`, failed `assert_eq!`, out-of-bounds
  indexing, shape errors inside `ndarray`) are modelled as `Except.error`
  with an error code distinguishing the panic site's class:
  `Err.shape` for numeric-kernel shape panics, `Err.usage` for
  unwrap/expect/assert panics on absent values or mismatched graphs, and
  `Err.oob` for vector index panics.
* `Raw<T>` is an owning box; every assignment in the engine stores a freshly
  boxed value (`Raw::new`) and the only in-place write (`*grad.data = ...`
  in `Tensor::backward`) targets a box that is never aliased by another
  node's field, so the state is faithfully modelled by a pure list of nodes
  threaded through the traversals.
-/

namespace RustGrad

/-- Classes of Rust panics, used as the error type of the embedding. -/
inductive Err where
  | shape
  | usage
  | oob
deriving DecidableEq, Repr

/--
The `TensorType` capability trait (src/tensor.rs lines 11-24).  Binary
numeric kernels return `Option`: `none` models the panic that the concrete
backend raises on a shape/rank mismatch.
-/
structure TensorOps (T : Type) where
  add : T → T → Option T
  sub : T → T → Option T
  mul : T → T → Option T
  div : T → T → Option T
  matmul : T → T → Option T
  t : T → T
  expm : T → T
  val_like : T → ℚ → T
  ones_like : T → T
  eye_like : T → T

/-- One-argument operations with their cached forward state
(`ExpM { a, res }`, src/functions.rs lines 94-97). -/
inductive OneOp (T : Type) where
  | expMOp (a : Option T) (res : Option T)
deriving DecidableEq, Repr

/-- Two-argument operations with their cached forward state
(`Add`, `Mul { x_ctx, y_ctx }`, `MatMul { x_ctx, y_ctx }`,
src/functions.rs lines 29, 43-46, 69-72). -/
inductive TwoOp (T : Type) where
  | addOp
  | mulOp (x_ctx : Option T) (y_ctx : Option T)
  | matMulOp (x_ctx : Option T) (y_ctx : Option T)
deriving DecidableEq, Repr

/-- The `Function` enum (src/functions.rs lines 10-14): a node is a leaf
(`None`), a unary operation, or a binary operation.  Named `Func` here
because `Function` is a core Lean namespace. -/
inductive Func (T : Type) where
  | none
  | one (f : OneOp T)
  | two (f : TwoOp T)
deriving DecidableEq, Repr

/-- A node of the Wengert list (src/graph.rs lines 13-19). -/
structure Node (T : Type) where
  deps : Nat × Nat
  func : Func T
  value : Option T
  grad : Option T
  ctx : Option T × Option T
deriving DecidableEq, Repr

/-- The computation graph: the ordered node list inside
`Graph { nodes: RefCell<Vec<RefCell<Node>>> }` (src/graph.rs lines 40-42). -/
abbrev Graph (T : Type) := List (Node T)

/-- Vector indexing `nodes[i]`; an out-of-range index panics in Rust. -/
def getNode {T : Type} (nodes : Graph T) (i : Nat) : Except Err (Node T) :=
  match nodes.get? i with
  | Option.some n => .ok n
  | Option.none => .error .oob

/-- `Option::unwrap` / `expect` on a value that must have been computed by a
previous pass: absence is a usage-class panic. -/
def liftUsage {T : Type} : Option T → Except Err T
  | Option.some v => .ok v
  | Option.none => .error .usage

/-- A numeric-kernel result: `none` is the backend's shape panic. -/
def liftShape {T : Type} : Option T → Except Err T
  | Option.some v => .ok v
  | Option.none => .error .shape

/-- `OneValuedFn::forward` for each unary op: `ExpM::forward` caches the
input and the result and returns `eye_like(a) ⊙ expm(a)`
(src/functions.rs lines 99-108). -/
def oneForward {T : Type} (ops : TensorOps T) : OneOp T → T → Except Err (OneOp T × T)
  | .expMOp _ _, t_a => do
    let eye := ops.eye_like t_a
    let t_out ← liftShape (ops.mul eye (ops.expm t_a))
    .ok (.expMOp (Option.some t_a) (Option.some t_out), t_out)

/-- `TwoValuedFn::forward` for each binary op (src/functions.rs lines
31-34, 48-53, 74-80).  `Mul` and `MatMul` cache both inputs. -/
def twoForward {T : Type} (ops : TensorOps T) : TwoOp T → T → T → Except Err (TwoOp T × T)
  | .addOp, t_a, t_b => do
    let t_c ← liftShape (ops.add t_a t_b)
    .ok (.addOp, t_c)
  | .mulOp _ _, t_a, t_b => do
    let t_c ← liftShape (ops.mul t_a t_b)
    .ok (.mulOp (Option.some t_a) (Option.some t_b), t_c)
  | .matMulOp _ _, t_a, t_b => do
    let t_c ← liftShape (ops.matmul t_a t_b)
    .ok (.matMulOp (Option.some t_a) (Option.some t_b), t_c)

/-- The commutator closure in `ExpM::backward`:
`|a, b| a.matmul(b).sub(&b.matmul(a))` (src/functions.rs line 120). -/
def commu {T : Type} (ops : TensorOps T) (a b : T) : Option T := do
  let x ← ops.matmul a b
  let y ← ops.matmul b a
  ops.sub x y

/-- The truncated-series loop `for o in 2..7 { ... }` of `ExpM::backward`
(src/functions.rs lines 125-138), with state `(p_commu, total, factorial)`. -/
def expMLoop {T : Type} (ops : TensorOps T) (a : T) :
    List Nat → T → T → Int → Except Err (T × T)
  | [], p_commu, total, _ => .ok (p_commu, total)
  | o :: os, p_commu, total, factorial =>
    let factorial := factorial * (o : Int)
    let factor : Int := if o % 2 == 0 then -1 else 1
    match commu ops a p_commu with
    | Option.none => .error .shape
    | Option.some new_commu =>
      let fac_mat := ops.val_like a ((factor * factorial : Int) : ℚ)
      match ops.div new_commu fac_mat with
      | Option.none => .error .shape
      | Option.some q =>
        match ops.add total q with
        | Option.none => .error .shape
        | Option.some total2 => expMLoop ops a os new_commu total2 factorial

/-- `OneValuedFn::backward`.  `ExpM::backward` (src/functions.rs lines
115-142) unwraps its cached state, runs the truncated commutator series with
`p_commu = total = grad`, and returns `[Some(res · total), None]`. -/
def oneBackward {T : Type} (ops : TensorOps T) :
    OneOp T → T → Except Err (Option T × Option T)
  | .expMOp a? res?, grad =>
    match a?, res? with
    | Option.some a, Option.some res =>
      match expMLoop ops a [2, 3, 4, 5, 6] grad grad 1 with
      | .error e => .error e
      | .ok (_, total) =>
        match ops.matmul res total with
        | Option.none => .error .shape
        | Option.some out => .ok (Option.some out, Option.none)
    | _, _ => .error .usage

/-- `TwoValuedFn::backward` (src/functions.rs lines 35-37, 54-62, 81-89):
`Add` passes the gradient to both slots, `Mul` returns
`[y·g, x·g]`, `MatMul` returns `[g·yᵗ, xᵗ·g]`. -/
def twoBackward {T : Type} (ops : TensorOps T) :
    TwoOp T → T → Except Err (Option T × Option T)
  | .addOp, grad => .ok (Option.some grad, Option.some grad)
  | .mulOp x? y?, grad => do
    let x_ctx ← liftUsage x?
    let y_ctx ← liftUsage y?
    let a ← liftShape (ops.mul y_ctx grad)
    let b ← liftShape (ops.mul x_ctx grad)
    .ok (Option.some a, Option.some b)
  | .matMulOp x? y?, grad => do
    let x0 ← liftUsage x?
    let x_ctx := ops.t x0
    let y0 ← liftUsage y?
    let y_ctx := ops.t y0
    let a ← liftShape (ops.matmul grad y_ctx)
    let b ← liftShape (ops.matmul x_ctx grad)
    .ok (Option.some a, Option.some b)

/-- One iteration of the loop body of `Tensor::forward` (src/tensor.rs lines
224-240): leaves are skipped, operation nodes fetch their dependencies'
values (panicking if absent), run the operation's forward and store the
result and the refreshed cached state. -/
def forwardStep {T : Type} (ops : TensorOps T) (nodes : Graph T) (i : Nat) :
    Except Err (Graph T) :=
  match nodes.get? i with
  | Option.none => .error .oob
  | Option.some node =>
    match node.func with
    | .none => .ok nodes
    | .one f => do
      let n_l ← getNode nodes node.deps.1
      let v_l ← liftUsage n_l.value
      let fv ← oneForward ops f v_l
      .ok (nodes.set i { node with func := .one fv.1, value := Option.some fv.2 })
    | .two f => do
      let n_l ← getNode nodes node.deps.1
      let v_l ← liftUsage n_l.value
      let n_r ← getNode nodes node.deps.2
      let v_r ← liftUsage n_r.value
      let fv ← twoForward ops f v_l v_r
      .ok (nodes.set i { node with func := .two fv.1, value := Option.some fv.2 })

/-- `Tensor::forward` (src/tensor.rs lines 221-241): iterate node indices
`0 ..= self.index` in increasing order. -/
def Tensor.forward {T : Type} (ops : TensorOps T) (nodes : Graph T) (index : Nat) :
    Except Err (Graph T) :=
  (List.range (index + 1)).foldlM (forwardStep ops) nodes

/-- One dependency slot of the propagation loop `for j in 0..2` in
`Tensor::backward` (src/tensor.rs lines 271-286): slots whose dependency
index equals the node's own index are skipped (the leaf self-loop sentinel,
detected by `std::ptr::eq`); otherwise a present partial is added into the
dependency's gradient, or installed as its first gradient. -/
def propagateSlot {T : Type} (ops : TensorOps T) (nodes : Graph T) (i : Nat)
    (dj : Nat) (cj : Option T) : Except Err (Graph T) :=
  if dj = i then .ok nodes
  else do
    let node_d ← getNode nodes dj
    match node_d.grad, cj with
    | Option.some g0, Option.some w => do
      let s ← liftShape (ops.add g0 w)
      .ok (nodes.set dj { node_d with grad := Option.some s })
    | Option.some _, Option.none => .ok nodes
    | Option.none, Option.some w => .ok (nodes.set dj { node_d with grad := Option.some w })
    | Option.none, Option.none => .ok nodes

/-- One iteration of the main loop of `Tensor::backward` (src/tensor.rs
lines 258-287): an operation node computes its partials from its current
gradient (panicking if the gradient is absent) and stores them in `ctx`,
then both dependency slots are propagated. -/
def backwardNode {T : Type} (ops : TensorOps T) (nodes : Graph T) (i : Nat) :
    Except Err (Graph T) := do
  let node0 ← getNode nodes i
  let st : Graph T × Node T ←
    match node0.func with
    | .none => .ok (nodes, node0)
    | .one f => do
      let g ← liftUsage node0.grad
      let c ← oneBackward ops f g
      let n := { node0 with ctx := c }
      .ok (nodes.set i n, n)
    | .two f => do
      let g ← liftUsage node0.grad
      let c ← twoBackward ops f g
      let n := { node0 with ctx := c }
      .ok (nodes.set i n, n)
  let nodes1 ← propagateSlot ops st.1 i st.2.deps.1 st.2.ctx.1
  propagateSlot ops nodes1 i st.2.deps.2 st.2.ctx.2

/-- `Tensor::backward` (src/tensor.rs lines 249-288): seed the target's
gradient with `init`, then iterate all indices `(0..len).rev()` — the whole
node list in decreasing order. -/
def Tensor.backward {T : Type} (ops : TensorOps T) (nodes : Graph T)
    (target : Nat) (init : T) : Except Err (Graph T) := do
  let len := nodes.length
  let node ← getNode nodes target
  let seeded := nodes.set target { node with grad := Option.some init }
  (List.range len).reverse.foldlM (backwardNode ops) seeded

/-- `Tensor::value` (src/tensor.rs lines 198-204): a host copy of the node's
value; `expect("Was forward called?")` panics when it is absent.  For the
host backend `get_value_cpu` is `clone`, i.e. the identity here. -/
def Tensor.value {T : Type} (nodes : Graph T) (index : Nat) : Except Err T := do
  let node ← getNode nodes index
  liftUsage node.value

/-- `Tensor::grad` (src/tensor.rs lines 209-214): a host copy of the node's
gradient; `expect("Was backward called?")` panics when it is absent. -/
def Tensor.grad {T : Type} (nodes : Graph T) (index : Nat) : Except Err T := do
  let node ← getNode nodes index
  liftUsage node.grad

/-- `Graph::tensor` (src/graph.rs lines 61-78): append a leaf node with
self-referencing deps `[len, len]`, no operation, the given value, and
return the handle index. -/
def Graph.tensor {T : Type} (g : Graph T) (value : T) : Graph T × Nat :=
  (g ++ [{ deps := (g.length, g.length), func := .none,
           value := Option.some value, grad := Option.none,
           ctx := (Option.none, Option.none) }], g.length)

/-- The node push performed by `impl Add for Tensor` (src/tensor.rs lines
349-364): append a node with deps `[self.index, other.index]` and a fresh
`Add`, returning the new index. -/
def pushAdd {T : Type} (g : Graph T) (i j : Nat) : Graph T × Nat :=
  (g ++ [{ deps := (i, j), func := .two .addOp, value := Option.none,
           grad := Option.none, ctx := (Option.none, Option.none) }], g.length)

/-- The node push performed by `impl Mul for Tensor` (src/tensor.rs lines
375-398): a fresh `Mul { x_ctx: None, y_ctx: None }`. -/
def pushMul {T : Type} (g : Graph T) (i j : Nat) : Graph T × Nat :=
  (g ++ [{ deps := (i, j), func := .two (.mulOp Option.none Option.none),
           value := Option.none, grad := Option.none,
           ctx := (Option.none, Option.none) }], g.length)

/-- The node push performed by `Tensor::matmul` (src/tensor.rs lines
295-313): a fresh `MatMul { x_ctx: None, y_ctx: None }`. -/
def pushMatMul {T : Type} (g : Graph T) (i j : Nat) : Graph T × Nat :=
  (g ++ [{ deps := (i, j), func := .two (.matMulOp Option.none Option.none),
           value := Option.none, grad := Option.none,
           ctx := (Option.none, Option.none) }], g.length)

/-- The node push performed by `Tensor::expm` (src/tensor.rs lines 323-339):
deps are `[self.index, self.index]` — both slots hold the operand's index —
with a fresh `ExpM { a: None, res: None }`. -/
def pushExpM {T : Type} (g : Graph T) (i : Nat) : Graph T × Nat :=
  (g ++ [{ deps := (i, i), func := .one (.expMOp Option.none Option.none),
           value := Option.none, grad := Option.none,
           ctx := (Option.none, Option.none) }], g.length)

/-- A tensor handle `Tensor { graph, index }` (src/tensor.rs lines 181-184);
the graph reference is modelled as an index into a store of graphs, so two
handles reference the identical `Graph` iff their `graph` fields agree. -/
structure TensorHandle where
  graph : Nat
  index : Nat
deriving DecidableEq, Repr

/-- `impl Add for Tensor` (src/tensor.rs lines 342-366): `assert_eq!` on the
two graph pointers (a usage-class panic on mismatch), then push one node. -/
def tensorAdd {T : Type} (store : List (Graph T)) (a b : TensorHandle) :
    Except Err (List (Graph T) × TensorHandle) :=
  if a.graph = b.graph then
    match store.get? a.graph with
    | Option.none => .error .oob
    | Option.some g =>
      let p := pushAdd g a.index b.index
      .ok (store.set a.graph p.1, ⟨a.graph, p.2⟩)
  else .error .usage

/-- `impl Mul for Tensor` (src/tensor.rs lines 368-400). -/
def tensorMul {T : Type} (store : List (Graph T)) (a b : TensorHandle) :
    Except Err (List (Graph T) × TensorHandle) :=
  if a.graph = b.graph then
    match store.get? a.graph with
    | Option.none => .error .oob
    | Option.some g =>
      let p := pushMul g a.index b.index
      .ok (store.set a.graph p.1, ⟨a.graph, p.2⟩)
  else .error .usage

/-- `Tensor::matmul` (src/tensor.rs lines 290-314). -/
def tensorMatmul {T : Type} (store : List (Graph T)) (a b : TensorHandle) :
    Except Err (List (Graph T) × TensorHandle) :=
  if a.graph = b.graph then
    match store.get? a.graph with
    | Option.none => .error .oob
    | Option.some g =>
      let p := pushMatMul g a.index b.index
      .ok (store.set a.graph p.1, ⟨a.graph, p.2⟩)
  else .error .usage

/-- A graph-construction step: leaf creation or operator application on
already-existing handles of one graph. -/
inductive BuildStep (T : Type) where
  | leaf (v : T)
  | addT (i j : Nat)
  | mulT (i j : Nat)
  | matmulT (i j : Nat)
  | expmT (i : Nat)
deriving DecidableEq, Repr

/-- Apply one construction step to a graph. -/
def applyStep {T : Type} (g : Graph T) : BuildStep T → Graph T
  | .leaf v => (Graph.tensor g v).1
  | .addT i j => (pushAdd g i j).1
  | .mulT i j => (pushMul g i j).1
  | .matmulT i j => (pushMatMul g i j).1
  | .expmT i => (pushExpM g i).1

/-- Build a graph from scratch by a sequence of steps. -/
def build {T : Type} (steps : List (BuildStep T)) : Graph T :=
  steps.foldl applyStep []

/-- A step sequence is valid from length `n` when every operator application
references handles that already exist — which is forced in Rust, since a
`Tensor` handle can only be obtained from a node already in the graph. -/
def validSteps {T : Type} : Nat → List (BuildStep T) → Bool
  | _, [] => true
  | n, s :: rest =>
    (match s with
     | .leaf _ => true
     | .addT i j => decide (i < n) && decide (j < n)
     | .mulT i j => decide (i < n) && decide (j < n)
     | .matmulT i j => decide (i < n) && decide (j < n)
     | .expmT i => decide (i < n)) && validSteps (n + 1) rest

/-! ## The host backend: `ndarray::Array<f32, IxDyn>` -/

/-- A dynamically shaped host array: shape plus row-major flattened data
(the storage layout of `ndarray`), with `f32` idealised as `ℚ`. -/
structure NdArr where
  shape : List Nat
  data : List ℚ
deriving DecidableEq, Repr

/-- Row-major entry access of a rank-2 array with `cols` columns. -/
def NdArr.entry (a : NdArr) (cols i j : Nat) : ℚ :=
  a.data.getD (i * cols + j) 0

/-- Elementwise binary kernel: `ndarray`'s `&a ⊕ &b` panics unless the
shapes agree (its broadcasting is never exercised by the claims and is not
modelled). -/
def ewise (f : ℚ → ℚ → ℚ) (a b : NdArr) : Option NdArr :=
  if a.shape = b.shape then Option.some ⟨a.shape, List.zipWith f a.data b.data⟩
  else Option.none

/-- `TensorType::matmul` for `Array` (src/tensor.rs lines 56-68):
`into_dimensionality::<Ix2>` panics (`"Not a 2x2 matrix"`) unless the rank
is 2, and `dot` panics unless the inner dimensions agree; otherwise the
standard rank-2 matrix product. -/
def NdArr.matmul (a b : NdArr) : Option NdArr :=
  match a.shape, b.shape with
  | [m, k], [k2, n] =>
    if k = k2 then
      Option.some ⟨[m, n], (List.range (m * n)).map (fun l =>
        ((List.range k).map (fun s => a.entry k (l / n) s * b.entry n s (l % n))).sum)⟩
    else Option.none
  | _, _ => Option.none

/-- Row-major flattening of a multi-index for a given shape. -/
def flatIndex : List Nat → List Nat → Nat
  | [], _ => 0
  | _ :: _, [] => 0
  | _ :: rest, i :: is => i * rest.prod + flatIndex rest is

/-- Row-major unflattening of a linear index for a given shape. -/
def multiIndex : List Nat → Nat → List Nat
  | [], _ => []
  | _ :: rest, l => l / rest.prod :: multiIndex rest (l % rest.prod)

/-- `TensorType::t` for `Array`: `reversed_axes` (src/tensor.rs lines
69-71) — the axis order is reversed, so the entry at multi-index `m` of the
result is the entry at `m.reverse` of the input. -/
def NdArr.t (a : NdArr) : NdArr :=
  ⟨a.shape.reverse, (List.range a.shape.prod).map (fun l =>
    a.data.getD (flatIndex a.shape ((multiIndex a.shape.reverse l).reverse)) 0)⟩

/-- `TensorType::val_like` for `Array`: `Array::ones(shape) * val`
(src/tensor.rs lines 32-35). -/
def NdArr.val_like (a : NdArr) (v : ℚ) : NdArr :=
  ⟨a.shape, List.replicate a.shape.prod v⟩

/-- `TensorType::eye_like` for `Array`: `Array::eye(shape[0])`
(src/tensor.rs lines 40-43).  (`shape[0]` of a rank-0 array would panic in
Rust; the claims only exercise arrays of rank at least 1.) -/
def NdArr.eye_like (a : NdArr) : NdArr :=
  let n := a.shape.headD 0
  ⟨[n, n], (List.range (n * n)).map (fun l => if l / n = l % n then 1 else 0)⟩

/-- The full `TensorType` implementation for the host backend
(src/tensor.rs lines 25-76), parametrised by the scalar exponential `expS`
standing for `f32::exp`. -/
def ndOps (expS : ℚ → ℚ) : TensorOps NdArr where
  add := ewise (· + ·)
  sub := ewise (· - ·)
  mul := ewise (· * ·)
  div := ewise (· / ·)
  matmul := NdArr.matmul
  t := NdArr.t
  expm := fun a => ⟨a.shape, a.data.map expS⟩
  val_like := NdArr.val_like
  ones_like := fun a => ⟨a.shape, List.replicate a.shape.prod 1⟩
  eye_like := NdArr.eye_like

/-- The host backend with the scalar exponential left as the identity: the
claims settled on concrete inputs never evaluate `exp`. -/
def opsNd : TensorOps NdArr := ndOps id

/-! ## Spec-side formulas -/

/-- Scalar multiple of an array, used to state the spec's
`(−1)ᵏ/k! · Cₖ` terms. -/
def NdArr.smul (c : ℚ) (a : NdArr) : NdArr :=
  ⟨a.shape, a.data.map (fun x => c * x)⟩

/-- The spec's commutator `[a, b] = a·b − b·a` on host arrays. -/
def specCommu (a b : NdArr) : Option NdArr := do
  let x ← NdArr.matmul a b
  let y ← NdArr.matmul b a
  ewise (· - ·) x y

/-- The spec's series accumulation: starting from the previous commutator
`c` and the running `total`, each order `k` forms `Cₖ = [a, Cₖ₋₁]` and adds
`coeff k · Cₖ` into the total. -/
def specSeries (coeff : Nat → ℚ) (a : NdArr) :
    List Nat → NdArr → NdArr → Option NdArr
  | [], _, total => Option.some total
  | k :: ks, c, total => do
    let c2 ← specCommu a c
    let total2 ← ewise (· + ·) total (NdArr.smul (coeff k) c2)
    specSeries coeff a ks c2 total2

/-- Modelled from the spec (claim C3's words): `C₀ = g`; for `k = 2..6`,
`Cₖ = a·Cₖ₋₁ − Cₖ₋₁·a`; `total = g + Σₖ (−1)ᵏ/k! · Cₖ` — the `k`-th term
carrying sign `(−1)ᵏ` and denominator `k!`. -/
def specExpMTotal (a g : NdArr) : Option NdArr :=
  specSeries (fun k => (-1) ^ k / (Nat.factorial k : ℚ)) a [2, 3, 4, 5, 6] g g

/-- The amended series: identical except that the `k`-th term carries sign
`(−1)ᵏ⁺¹` (negative for even `k`), which is what the code's
`if o % 2 == 0 { -1 } else { 1 }` computes. -/
def amendedExpMTotal (a g : NdArr) : Option NdArr :=
  specSeries (fun k => (-1) ^ (k + 1) / (Nat.factorial k : ℚ)) a [2, 3, 4, 5, 6] g g

/-! ## Concrete scenarios -/

deriving instance DecidableEq for Except

/-- A length-2 host vector. -/
def vec2 (x y : ℚ) : NdArr := ⟨[2], [x, y]⟩

/-- A 2×2 host matrix, row major. -/
def mat2 (a b c d : ℚ) : NdArr := ⟨[2, 2], [a, b, c, d]⟩

/-- Scenario A of the spec: leaves `x = [1,2]`, `y = [3,4]`; `z = x + y`;
`w = z + x`.  Indices: x = 0, y = 1, z = 2, w = 3. -/
def scenarioASteps : List (BuildStep NdArr) :=
  [.leaf (vec2 1 2), .leaf (vec2 3 4), .addT 0 1, .addT 2 0]

/-- The scenario A graph as built (before any pass). -/
def scenarioAGraph : Graph NdArr := build scenarioASteps

/-- Run scenario A end to end: forward on `w`, read `z.value` and
`w.value`, backward from `w` with seed `[1,1]`, read the four gradients.
Returns `(z.value, w.value, w.grad, z.grad, x.grad, y.grad)`. -/
def scenarioARun : Except Err (NdArr × NdArr × NdArr × NdArr × NdArr × NdArr) := do
  let g ← Tensor.forward opsNd scenarioAGraph 3
  let zv ← Tensor.value g 2
  let wv ← Tensor.value g 3
  let g2 ← Tensor.backward opsNd g 3 (vec2 1 1)
  let wg ← Tensor.grad g2 3
  let zg ← Tensor.grad g2 2
  let xg ← Tensor.grad g2 0
  let yg ← Tensor.grad g2 1
  .ok (zv, wv, wg, zg, xg, yg)

/-- Scenario A after forward and one backward pass. -/
def scenarioAFirstBackward : Except Err (Graph NdArr) := do
  let g ← Tensor.forward opsNd scenarioAGraph 3
  Tensor.backward opsNd g 3 (vec2 1 1)

/-- Scenario A after forward and two identical backward passes. -/
def scenarioASecondBackward : Except Err (Graph NdArr) := do
  let g ← scenarioAFirstBackward
  Tensor.backward opsNd g 3 (vec2 1 1)

/-- Read the four gradients `(w.grad, z.grad, x.grad, y.grad)` of a
scenario A graph state. -/
def scenarioAGrads (g : Graph NdArr) : Except Err (NdArr × NdArr × NdArr × NdArr) := do
  let wg ← Tensor.grad g 3
  let zg ← Tensor.grad g 2
  let xg ← Tensor.grad g 0
  let yg ← Tensor.grad g 1
  .ok (wg, zg, xg, yg)

/-- A graph with an operation node (index 3) that is *not* an ancestor of
the backward target (index 2): leaves 0, 1 and two independent sums. -/
def siblingOpSteps : List (BuildStep NdArr) :=
  [.leaf (vec2 1 2), .leaf (vec2 3 4), .addT 0 1, .addT 0 1]

/-- Forward the sibling-op graph to index 3, then run backward from
index 2 (so node 3 has a value but never receives a gradient). -/
def siblingOpBackward : Except Err (Graph NdArr) := do
  let g ← Tensor.forward opsNd (build siblingOpSteps) 3
  Tensor.backward opsNd g 2 (vec2 1 1)

/-! ## Claim C1 -/

/-- C1: end-to-end scenario A.  For leaves `x = [1,2]`, `y = [3,4]` with
`z = x + y` and `w = z + x`, forward on `w` yields `z.value = [4,6]` and
`w.value = [5,8]`; backward from `w` with seed `[1,1]` yields
`w.grad = [1,1]`, `z.grad = [1,1]`, `x.grad = [2,2]` (the contribution
through `z` and the direct `w = z + x` edge are added), `y.grad = [1,1]`. -/
theorem C1_end_to_end_scenario_A :
    scenarioARun =
      .ok (vec2 4 6, vec2 5 8, vec2 1 1, vec2 1 1, vec2 2 2, vec2 1 1) := by
  with_unfolding_all decide

/-! ## Claim C2 -/

/-- C2 counterexample: backward does *not* visit only `t..0`, and an
absent gradient on a visited operation node is *not* benign.  In the
sibling-op graph, backward from target 2 visits node 3 first (an operation
node with index greater than the target and no gradient) and fails with a
usage-class panic (`node.grad.unwrap()` in `Tensor::backward`). -/
theorem C2_counterexample_backward_from_earlier_target_fails :
    siblingOpBackward = .error .usage := by
  with_unfolding_all decide

/-- `backwardNode` at a node with the self-loop sentinel and no operation
is a no-op: the `Function::None` arm skips the partials computation, and
both propagation slots are skipped by the `std::ptr::eq` self-reference
check. -/
theorem backwardNode_sentinel {T : Type} {ops : TensorOps T} {g : Graph T}
    {i : Nat} {node : Node T} (h : g.get? i = Option.some node)
    (hf : node.func = Func.none) (hd : node.deps = (i, i)) :
    backwardNode ops g i = .ok g := by
  unfold backwardNode
  simp only [getNode, h, hf, hd, bind, Except.bind, propagateSlot]
  simp

/-- `backwardNode` at an operation node with no stored gradient panics:
`node.grad.unwrap()` in `Tensor::backward`. -/
theorem backwardNode_gradless_op {T : Type} {ops : TensorOps T} {g : Graph T}
    {i : Nat} {node : Node T} (h : g.get? i = Option.some node)
    (hf : node.func ≠ Func.none) (hg : node.grad = Option.none) :
    backwardNode ops g i = .error .usage := by
  unfold backwardNode
  simp only [getNode, h, bind, Except.bind]
  cases hfc : node.func with
  | none => exact absurd hfc hf
  | one f => simp only [liftUsage, hg, Except.bind]
  | two f => simp only [liftUsage, hg, Except.bind]

/-- Walking the backward loop `n-1, …, 0` over a graph whose nodes above
`t` hold no gradient (and whose leaves above `t` carry the self-loop
sentinel) raises a usage panic as soon as the topmost operation node above
`t` is visited — the leaves above it are skipped by the sentinel check and
propagate nothing. -/
theorem backward_fold_gradless {T : Type} (ops : TensorOps T) :
    ∀ (n : Nat) (g : Graph T) (t : Nat),
      n ≤ g.length →
      (∀ i node, t < i → g.get? i = Option.some node →
        node.grad = Option.none ∧ (node.func = Func.none → node.deps = (i, i))) →
      (∃ j node, t < j ∧ j < n ∧ g.get? j = Option.some node ∧
        node.func ≠ Func.none) →
      (List.range n).reverse.foldlM (backwardNode ops) g = .error .usage
  | 0, g, t, _, _, hex => by
    obtain ⟨j, node, htj, hj0, -, -⟩ := hex
    omega
  | m + 1, g, t, hlen, hinv, hex => by
    obtain ⟨j, node, htj, hjm, hget, hop⟩ := hex
    have htm : t < m := by omega
    obtain ⟨nm, hnm⟩ : ∃ nm, g.get? m = Option.some nm := by
      cases hq : g.get? m with
      | none => exact absurd (List.get?_eq_none.mp hq) (by omega)
      | some x => exact ⟨x, rfl⟩
    have hsplit : (List.range (m + 1)).reverse = m :: (List.range m).reverse := by
      rw [List.range_succ, List.reverse_append, List.reverse_singleton,
        List.singleton_append]
    rw [hsplit, List.foldlM_cons]
    obtain ⟨hgrad, hsent⟩ := hinv m nm htm hnm
    cases hfc : nm.func with
    | none =>
      rw [backwardNode_sentinel hnm hfc (hsent hfc)]
      have hj2 : j < m := by
        rcases Nat.lt_succ_iff_lt_or_eq.mp hjm with h | h
        · exact h
        · exfalso
          subst h
          rw [hnm] at hget
          injection hget with hget
          subst hget
          exact hop hfc
      have hrec := backward_fold_gradless ops m g t (by omega) hinv
        ⟨j, node, htj, hj2, hget, hop⟩
      simp only [bind, Except.bind]
      exact hrec
    | one f =>
      rw [backwardNode_gradless_op hnm
        (by rw [hfc]; exact fun h => Func.noConfusion h) hgrad]
      rfl
    | two f =>
      rw [backwardNode_gradless_op hnm
        (by rw [hfc]; exact fun h => Func.noConfusion h) hgrad]
      rfl

/-- C2 amended: `Tensor::backward` iterates `(0..len).rev()` — every index
of the whole graph in decreasing order, not only `t..0` — and calls
`.unwrap()` on the gradient of every visited operation node, panicking when
the gradient is absent; only self-loop sentinel leaves are skipped safely.
Consequently, on any graph state whose nodes above the target hold no
gradient (every freshly built graph, before or after forward passes, is
such a state), backward from `t` fails with a usage error whenever *any*
operation node — reachable from `t` or not, last in the graph or not —
has index greater than `t`. -/
theorem C2_amended_backward_visits_whole_graph {T : Type} (ops : TensorOps T)
    (nodes : Graph T) (t : Nat) (init : T)
    (hup : ∀ i node, t < i → nodes.get? i = Option.some node →
      node.grad = Option.none ∧ (node.func = Func.none → node.deps = (i, i)))
    (hex : ∃ j node, t < j ∧ nodes.get? j = Option.some node ∧
      node.func ≠ Func.none) :
    Tensor.backward ops nodes t init = .error .usage := by
  obtain ⟨j, node, htj, hget, hop⟩ := hex
  have hj : j < nodes.length := (List.get?_eq_some.mp hget).1
  have ht : t < nodes.length := by omega
  obtain ⟨nt, hnt⟩ : ∃ nt, nodes.get? t = Option.some nt := by
    rw [List.get?_eq_get ht]
    exact ⟨_, rfl⟩
  unfold Tensor.backward
  simp only [getNode, hnt, bind, Except.bind]
  apply backward_fold_gradless ops nodes.length
    (nodes.set t { nt with grad := Option.some init }) t
  · simp [List.length_set]
  · intro i node2 hti hget2
    rw [List.get?_set_ne _ _ (by omega : t ≠ i)] at hget2
    exact hup i node2 hti hget2
  · exact ⟨j, node, htj, hj,
      by rw [List.get?_set_ne _ _ (by omega : t ≠ j)]; exact hget, hop⟩

/-- A graph with a trailing leaf *after* the gradient-less operation node:
leaves 0 and 1, two independent sums at 2 and 3, one more leaf at 4. -/
def trailingLeafSteps : List (BuildStep NdArr) :=
  [.leaf (vec2 1 2), .leaf (vec2 3 4), .addT 0 1, .addT 0 1, .leaf (vec2 5 6)]

/-- The trailing-leaf graph after a forward pass to index 4. -/
def trailingLeafGraph : Graph NdArr :=
  (Tensor.forward opsNd (build trailingLeafSteps) 4).toOption.getD []

/-- Forward the trailing-leaf graph, then backward from index 2: node 3 is
an operation node above the target with no gradient, and node 4 is a leaf
behind it. -/
def trailingLeafBackward : Except Err (Graph NdArr) := do
  let g ← Tensor.forward opsNd (build trailingLeafSteps) 4
  Tensor.backward opsNd g 2 (vec2 1 1)

/-- The sum node at index 3 of the forwarded trailing-leaf graph. -/
def trailingOpNode : Node NdArr :=
  { deps := (0, 1), func := .two .addOp, value := Option.some (vec2 4 6),
    grad := Option.none, ctx := (Option.none, Option.none) }

/-- The leaf node at index 4 of the forwarded trailing-leaf graph. -/
def trailingLeafNode : Node NdArr :=
  { deps := (4, 4), func := Func.none, value := Option.some (vec2 5 6),
    grad := Option.none, ctx := (Option.none, Option.none) }

/-- Witness for C2 amended on the trailing-leaf graph: the gradient-less
operation node at index 3 is *not* the last node, yet backward from index 2
still fails with a usage error. -/
theorem C2_amended_witness :
    trailingLeafBackward = .error .usage := by
  have hforward : Tensor.forward opsNd (build trailingLeafSteps) 4 =
      .ok trailingLeafGraph := by
    with_unfolding_all decide
  have hlen5 : trailingLeafGraph.length = 5 := by
    with_unfolding_all decide
  have h := C2_amended_backward_visits_whole_graph opsNd trailingLeafGraph
    2 (vec2 1 1)
    (by
      intro i node hi hget
      have hi5 : i < 5 := by
        have h5 := (List.get?_eq_some.mp hget).1
        rw [hlen5] at h5
        exact h5
      interval_cases i
      · rw [show trailingLeafGraph.get? 3 = Option.some trailingOpNode by
          with_unfolding_all decide] at hget
        injection hget with hget
        subst hget
        exact ⟨rfl, fun hf => Func.noConfusion hf⟩
      · rw [show trailingLeafGraph.get? 4 = Option.some trailingLeafNode by
          with_unfolding_all decide] at hget
        injection hget with hget
        subst hget
        exact ⟨rfl, fun _ => rfl⟩)
    ⟨3, trailingOpNode, by omega,
      by with_unfolding_all decide, by with_unfolding_all decide⟩
  unfold trailingLeafBackward
  rw [hforward]
  simpa using h

/-! ## Claim C4 -/

/-- C4 counterexample: re-invoking backward is *not* idempotent.  On
scenario A, after a completed backward from `w` with seed `[1,1]`, a second
identical backward changes `x.grad` from `[2,2]` to `[5,5]` (the partials
are accumulated into the still-present gradients again). -/
theorem C4_counterexample_second_backward_changes_grads :
    (do
      let g ← scenarioAFirstBackward
      Tensor.grad g 0) = .ok (vec2 2 2) ∧
    (do
      let g ← scenarioASecondBackward
      Tensor.grad g 0) = .ok (vec2 5 5) ∧
    vec2 5 5 ≠ vec2 2 2 := by
  with_unfolding_all decide

/-- C4 amended: a second backward call with the same seed re-seeds the
target (whose gradient is thus unchanged) but accumulates all partials into
the gradients left by the first call: on scenario A the second call yields
`w.grad = [1,1]`, `z.grad = [2,2]`, `x.grad = [5,5]`, `y.grad = [3,3]`
instead of leaving the first-call values. -/
theorem C4_amended_second_backward_accumulates :
    (do
      let g ← scenarioASecondBackward
      scenarioAGrads g) = .ok (vec2 1 1, vec2 2 2, vec2 5 5, vec2 3 3) := by
  with_unfolding_all decide

/-! ## Claim C7 -/

/-- Looking up an index in a list extended by one element finds either an
old element or, at the old length, the new one. -/
theorem get?_append_singleton {α : Type} {l : List α} {a b : α} {i : Nat}
    (h : (l ++ [a]).get? i = Option.some b) :
    l.get? i = Option.some b ∨ (i = l.length ∧ b = a) := by
  rcases Nat.lt_trichotomy i l.length with hlt | heq | hgt
  · left; rwa [List.get?_append hlt] at h
  · subst heq; rw [List.get?_concat_length] at h
    right; refine ⟨rfl, ?_⟩; injection h with h; exact h.symm
  · exfalso
    have : (l ++ [a]).get? i = Option.none := by
      refine List.get?_eq_none.mpr ?_
      simp only [List.length_append, List.length_singleton]
      omega
    rw [this] at h; exact Option.noConfusion h

/-- In a graph built purely by leaf creation and operator application, no
node has a gradient, and every operation node has no value. -/
theorem build_fresh {T : Type} :
    ∀ (steps : List (BuildStep T)) (g : Graph T),
      (∀ i node, g.get? i = Option.some node →
        node.grad = Option.none ∧ (node.func ≠ Func.none → node.value = Option.none)) →
      ∀ i node, (steps.foldl applyStep g).get? i = Option.some node →
        node.grad = Option.none ∧ (node.func ≠ Func.none → node.value = Option.none)
  | [], g, hg => hg
  | s :: rest, g, hg => by
    rw [List.foldl_cons]
    apply build_fresh rest (applyStep g s)
    intro i node hget
    cases s with
    | leaf v =>
      rcases get?_append_singleton hget with h | ⟨_, h⟩
      · exact hg i node h
      · subst h
        exact ⟨rfl, fun hf => absurd rfl hf⟩
    | addT a b =>
      rcases get?_append_singleton hget with h | ⟨_, h⟩
      · exact hg i node h
      · subst h; exact ⟨rfl, fun _ => rfl⟩
    | mulT a b =>
      rcases get?_append_singleton hget with h | ⟨_, h⟩
      · exact hg i node h
      · subst h; exact ⟨rfl, fun _ => rfl⟩
    | matmulT a b =>
      rcases get?_append_singleton hget with h | ⟨_, h⟩
      · exact hg i node h
      · subst h; exact ⟨rfl, fun _ => rfl⟩
    | expmT a =>
      rcases get?_append_singleton hget with h | ⟨_, h⟩
      · exact hg i node h
      · subst h; exact ⟨rfl, fun _ => rfl⟩

/-- C7 counterexample: a *leaf* handle's `value()` succeeds before any
forward pass has run — `Graph::tensor` stores the value at creation — so
the claim's "for every handle, `value()` before forward fails" is false. -/
theorem C7_counterexample_leaf_value_without_forward :
    Tensor.value (build [BuildStep.leaf (vec2 1 2)]) 0 = .ok (vec2 1 2) ∧
    Tensor.value (build [BuildStep.leaf (vec2 1 2)]) 0 ≠ .error .usage := by
  with_unfolding_all decide

/-- The operation node of the witness graph for C7. -/
def witnessOpNode : Node NdArr :=
  { deps := (0, 0), func := .two .addOp, value := Option.none,
    grad := Option.none, ctx := (Option.none, Option.none) }

/-! ## Claim C3: counterexample -/

/-- C3 counterexample input `a = [[0,1],[0,0]]`. -/
def cexA : NdArr := mat2 0 1 0 0

/-- C3 counterexample incoming gradient `g = [[0,0],[1,0]]`. -/
def cexG : NdArr := mat2 0 0 1 0

/-- C3 counterexample cached forward result: the 2×2 identity. -/
def cexEye : NdArr := mat2 1 0 0 1

/-- C3 counterexample: at `a = [[0,1],[0,0]]`, `g = [[0,0],[1,0]]`,
`res = I`, `ExpM::backward` returns `[[−1/2,−1/3],[1,1/2]]`, while the
claim's series (`k`-th term signed `(−1)ᵏ`) gives `[[1/2,1/3],[1,−1/2]]`:
the even-order terms enter with sign `−1`, not `+1`. -/
theorem C3_counterexample_series_sign :
    oneBackward opsNd (.expMOp (Option.some cexA) (Option.some cexEye)) cexG =
      .ok (Option.some (mat2 (-1/2) (-1/3) 1 (1/2)), Option.none) ∧
    (specExpMTotal cexA cexG).bind (fun total => NdArr.matmul cexEye total) =
      Option.some (mat2 (1/2) (1/3) 1 (-1/2)) ∧
    mat2 (-1/2) (-1/3) 1 (1/2) ≠ mat2 (1/2) (1/3) 1 (-1/2) := by
  with_unfolding_all decide

/-! ## Claim C9 -/

/-- The node record pushed by a binary operator. -/
def binNode {T : Type} (f : TwoOp T) (i j : Nat) : Node T :=
  { deps := (i, j), func := .two f, value := Option.none,
    grad := Option.none, ctx := (Option.none, Option.none) }

/-- C9: every binary operator (`+`, `*`, `matmul`) panics (`assert_eq!` on
the graph pointers — a usage error) when the two handles do not reference
the identical graph, appending nothing; when they do, it appends exactly
one node whose deps are the operand indices and returns a handle to the new
index (the old length). -/
theorem C9_cross_graph_rejection {T : Type} (store : List (Graph T))
    (a b : TensorHandle) :
    (a.graph ≠ b.graph →
      tensorAdd store a b = .error .usage ∧
      tensorMul store a b = .error .usage ∧
      tensorMatmul store a b = .error .usage) ∧
    (∀ g, a.graph = b.graph → store.get? a.graph = Option.some g →
      tensorAdd store a b =
        .ok (store.set a.graph (g ++ [binNode .addOp a.index b.index]),
             ⟨a.graph, g.length⟩) ∧
      tensorMul store a b =
        .ok (store.set a.graph
              (g ++ [binNode (.mulOp Option.none Option.none) a.index b.index]),
             ⟨a.graph, g.length⟩) ∧
      tensorMatmul store a b =
        .ok (store.set a.graph
              (g ++ [binNode (.matMulOp Option.none Option.none) a.index b.index]),
             ⟨a.graph, g.length⟩)) := by
  constructor
  · intro hne
    unfold tensorAdd tensorMul tensorMatmul
    simp only [if_neg hne, and_self]
  · intro g heq hget
    unfold tensorAdd tensorMul tensorMatmul
    simp only [if_pos heq, hget, pushAdd, pushMul, pushMatMul, binNode, and_self]

/-- Witness for C9: two singleton-leaf graphs in the store; mixing handles
of graphs 0 and 1 fails, composing two handles of graph 0 appends one
node. -/
theorem C9_witness :
    ((⟨0, 0⟩ : TensorHandle).graph ≠ (⟨1, 0⟩ : TensorHandle).graph ∧
      tensorAdd [(Graph.tensor [] (vec2 1 2)).1, (Graph.tensor [] (vec2 3 4)).1]
        ⟨0, 0⟩ ⟨1, 0⟩ = .error .usage) ∧
    tensorAdd [(Graph.tensor [] (vec2 1 2)).1] ⟨0, 0⟩ ⟨0, 0⟩ =
      .ok ([(Graph.tensor [] (vec2 1 2)).1 ++ [binNode .addOp 0 0]], ⟨0, 1⟩) := by
  constructor
  · exact ⟨by decide,
      ((C9_cross_graph_rejection _ ⟨0, 0⟩ ⟨1, 0⟩).1 (by decide)).1⟩
  · have h := ((C9_cross_graph_rejection
      [(Graph.tensor [] (vec2 1 2)).1] ⟨0, 0⟩ ⟨0, 0⟩).2
      (Graph.tensor [] (vec2 1 2)).1 rfl (by with_unfolding_all decide)).1
    simpa using h

/-! ## Claim C10 -/

/-- C10: an `expm` node duplicates its operand index in *both* dependency
slots (no self-loop sentinel), yet the operand receives exactly one
gradient contribution: `ExpM::backward` returns a partial only in slot 0
(`None` in slot 1), and during propagation the `None` slot contributes
nothing, so the gradient installed at the operand is `w` (first
contribution) or `g₀ + w` (accumulated once), never doubled. -/
theorem C10_expm_no_double_count {T : Type} (ops : TensorOps T) :
    (∀ (g : Graph T) (i : Nat),
      (pushExpM g i).1.get? g.length =
        Option.some { deps := (i, i), func := .one (.expMOp Option.none Option.none),
                      value := Option.none, grad := Option.none,
                      ctx := (Option.none, Option.none) } ∧
      (pushExpM g i).2 = g.length) ∧
    (∀ (f : OneOp T) (gr : T) (r : Option T × Option T),
      oneBackward ops f gr = .ok r → r.2 = Option.none) ∧
    (∀ (nodes : Graph T) (i d : Nat) (node node_d : Node T) (w : T),
      node.deps = (d, d) → node.ctx = (Option.some w, Option.none) → d ≠ i →
      nodes.get? d = Option.some node_d → node_d.grad = Option.none →
      (do
        let n1 ← propagateSlot ops nodes i node.deps.1 node.ctx.1
        propagateSlot ops n1 i node.deps.2 node.ctx.2) =
        .ok (nodes.set d { node_d with grad := Option.some w })) ∧
    (∀ (nodes : Graph T) (i d : Nat) (node node_d : Node T) (w g0 s : T),
      node.deps = (d, d) → node.ctx = (Option.some w, Option.none) → d ≠ i →
      nodes.get? d = Option.some node_d → node_d.grad = Option.some g0 →
      ops.add g0 w = Option.some s →
      (do
        let n1 ← propagateSlot ops nodes i node.deps.1 node.ctx.1
        propagateSlot ops n1 i node.deps.2 node.ctx.2) =
        .ok (nodes.set d { node_d with grad := Option.some s })) := by
  refine ⟨?_, ?_, ?_, ?_⟩
  · intro g i
    exact ⟨List.get?_concat_length _ _, rfl⟩
  · intro f gr r h
    cases f with
    | expMOp a? res? =>
      rcases a? with _ | a
      · exact Except.noConfusion h
      rcases res? with _ | res
      · exact Except.noConfusion h
      simp only [oneBackward] at h
      split at h
      · exact Except.noConfusion h
      · split at h
        · exact Except.noConfusion h
        · injection h with h
          rw [← h]
  · intro nodes i d node node_d w hdeps hctx hdi hget hgrad
    have hd : d < nodes.length := (List.get?_eq_some.mp hget).1
    rw [hdeps, hctx]
    simp only [bind, Except.bind, propagateSlot, if_neg hdi, getNode, hget, hgrad]
    have hget2 : (nodes.set d { node_d with grad := Option.some w }).get? d =
        Option.some { node_d with grad := Option.some w } :=
      List.get?_set_eq_of_lt _ (by simpa using hd)
    simp only [hget2]
  · intro nodes i d node node_d w g0 s hdeps hctx hdi hget hgrad hadd
    rw [hdeps, hctx]
    have hd : d < nodes.length := (List.get?_eq_some.mp hget).1
    simp only [bind, Except.bind, propagateSlot, if_neg hdi, getNode, hget, hgrad,
      hadd, liftShape]
    have hget2 : (nodes.set d { node_d with grad := Option.some s }).get? d =
        Option.some { node_d with grad := Option.some s } :=
      List.get?_set_eq_of_lt _ (by simpa using hd)
    simp only [hget2]

/-- The operand node of the C10 witness graph: a leaf holding `cexA`. -/
def c10Leaf : Node NdArr :=
  { deps := (0, 0), func := Func.none, value := Option.some cexA,
    grad := Option.none, ctx := (Option.none, Option.none) }

/-- The expm node of the C10 witness, with partials `(some cexG, none)` as
`ExpM::backward` produces them. -/
def c10Op : Node NdArr :=
  { deps := (0, 0), func := .one (.expMOp (Option.some cexA) (Option.some cexEye)),
    value := Option.some cexEye, grad := Option.none,
    ctx := (Option.some cexG, Option.none) }

/-- Witness for C10 on concrete data: the expm push on a one-leaf graph
duplicates the operand index, and propagating the expm node's two slots
into the gradient-free operand installs exactly one contribution `cexG`. -/
theorem C10_witness :
    (pushExpM (build [BuildStep.leaf cexA]) 0).1.get? 1 =
      Option.some { deps := (0, 0), func := .one (.expMOp Option.none Option.none),
                    value := Option.none, grad := Option.none,
                    ctx := (Option.none, Option.none) } ∧
    (do
      let n1 ← propagateSlot opsNd [c10Leaf] 1 c10Op.deps.1 c10Op.ctx.1
      propagateSlot opsNd n1 1 c10Op.deps.2 c10Op.ctx.2) =
      .ok [{ c10Leaf with grad := Option.some cexG }] := by
  constructor
  · exact ((C10_expm_no_double_count opsNd).1 (build [BuildStep.leaf cexA]) 0).1
  · have h := (C10_expm_no_double_count opsNd).2.2.1
      [c10Leaf] 1 0 c10Op c10Leaf cexG rfl rfl (by decide) rfl rfl
    simpa using h

/-! ## Claim C6 -/

/-- `liftShape` only fails with a shape error. -/
theorem liftShape_error {T : Type} {o : Option T} {e : Err}
    (h : liftShape o = .error e) : e = .shape := by
  cases o with
  | none => injection h with h; exact h.symm
  | some v => exact Except.noConfusion h

/-- The per-node topological invariant of built graphs: leaves carry the
self-loop sentinel and a value, unary nodes point (twice) at a strictly
earlier node, binary nodes point at two strictly earlier nodes. -/
def NodeInv {T : Type} (i : Nat) (node : Node T) : Prop :=
  (node.func = Func.none → node.deps = (i, i) ∧ ∃ v, node.value = Option.some v) ∧
  (∀ f, node.func = Func.one f → node.deps.1 < i ∧ node.deps.2 = node.deps.1) ∧
  (∀ f, node.func = Func.two f → node.deps.1 < i ∧ node.deps.2 < i)

/-- Every construction step appends exactly one node. -/
theorem applyStep_length {T : Type} (g : Graph T) (s : BuildStep T) :
    (applyStep g s).length = g.length + 1 := by
  cases s <;>
    simp [applyStep, Graph.tensor, pushAdd, pushMul, pushMatMul, pushExpM]

/-- Valid construction preserves the topological invariant. -/
theorem build_inv {T : Type} :
    ∀ (steps : List (BuildStep T)) (g : Graph T),
      validSteps g.length steps = true →
      (∀ i node, g.get? i = Option.some node → NodeInv i node) →
      ∀ i node, (steps.foldl applyStep g).get? i = Option.some node → NodeInv i node
  | [], _, _, hg => hg
  | s :: rest, g, hv, hg => by
    rw [List.foldl_cons]
    have hv2 : validSteps (applyStep g s).length rest = true := by
      rw [applyStep_length]
      cases s <;> simp [validSteps, Bool.and_eq_true] at hv <;>
        first
          | exact hv
          | exact hv.2
    apply build_inv rest (applyStep g s) hv2
    intro i node hget
    cases s with
    | leaf v =>
      rcases get?_append_singleton hget with h | ⟨hi, hb⟩
      · exact hg i node h
      · subst hi; subst hb
        exact ⟨fun _ => ⟨rfl, v, rfl⟩,
          fun f hf => Func.noConfusion hf,
          fun f hf => Func.noConfusion hf⟩
    | addT a b =>
      have hab : a < g.length ∧ b < g.length := by
        simp [validSteps, Bool.and_eq_true] at hv; exact hv.1
      rcases get?_append_singleton hget with h | ⟨hi, hb⟩
      · exact hg i node h
      · subst hi; subst hb
        exact ⟨fun hf => Func.noConfusion hf,
          fun f hf => Func.noConfusion hf,
          fun f _ => ⟨hab.1, hab.2⟩⟩
    | mulT a b =>
      have hab : a < g.length ∧ b < g.length := by
        simp [validSteps, Bool.and_eq_true] at hv; exact hv.1
      rcases get?_append_singleton hget with h | ⟨hi, hb⟩
      · exact hg i node h
      · subst hi; subst hb
        exact ⟨fun hf => Func.noConfusion hf,
          fun f hf => Func.noConfusion hf,
          fun f _ => ⟨hab.1, hab.2⟩⟩
    | matmulT a b =>
      have hab : a < g.length ∧ b < g.length := by
        simp [validSteps, Bool.and_eq_true] at hv; exact hv.1
      rcases get?_append_singleton hget with h | ⟨hi, hb⟩
      · exact hg i node h
      · subst hi; subst hb
        exact ⟨fun hf => Func.noConfusion hf,
          fun f hf => Func.noConfusion hf,
          fun f _ => ⟨hab.1, hab.2⟩⟩
    | expmT a =>
      have ha : a < g.length := by
        simp [validSteps, Bool.and_eq_true] at hv; exact hv.1
      rcases get?_append_singleton hget with h | ⟨hi, hb⟩
      · exact hg i node h
      · subst hi; subst hb
        exact ⟨fun hf => Func.noConfusion hf,
          fun f _ => ⟨ha, rfl⟩,
          fun f hf => Func.noConfusion hf⟩

/-- `OneValuedFn::forward` only fails with a shape error. -/
theorem oneForward_error {T : Type} (ops : TensorOps T) (f : OneOp T) (v : T)
    (e : Err) (h : oneForward ops f v = .error e) : e = .shape := by
  cases f with
  | expMOp a r =>
    unfold oneForward at h
    cases hm : ops.mul (ops.eye_like v) (ops.expm v) with
    | none => simp only [hm, liftShape, bind, Except.bind] at h
              injection h with h; exact h.symm
    | some o => simp only [hm, liftShape, bind, Except.bind] at h
                exact Except.noConfusion h

/-- `TwoValuedFn::forward` only fails with a shape error. -/
theorem twoForward_error {T : Type} (ops : TensorOps T) (f : TwoOp T) (v w : T)
    (e : Err) (h : twoForward ops f v w = .error e) : e = .shape := by
  cases f with
  | addOp =>
    unfold twoForward at h
    cases hm : ops.add v w with
    | none => simp only [hm, liftShape, bind, Except.bind] at h
              injection h with h; exact h.symm
    | some o => simp only [hm, liftShape, bind, Except.bind] at h
                exact Except.noConfusion h
  | mulOp x y =>
    unfold twoForward at h
    cases hm : ops.mul v w with
    | none => simp only [hm, liftShape, bind, Except.bind] at h
              injection h with h; exact h.symm
    | some o => simp only [hm, liftShape, bind, Except.bind] at h
                exact Except.noConfusion h
  | matMulOp x y =>
    unfold twoForward at h
    cases hm : ops.matmul v w with
    | none => simp only [hm, liftShape, bind, Except.bind] at h
              injection h with h; exact h.symm
    | some o => simp only [hm, liftShape, bind, Except.bind] at h
                exact Except.noConfusion h

/-- Main induction for forward safety: folding `forwardStep` over the first
`m` indices of an invariant-satisfying graph either stops with a shape
error from a numeric kernel, or succeeds, preserves the invariant and the
length, and populates the value of every node below `m`. -/
theorem forward_fold_safe {T : Type} (ops : TensorOps T) (g : Graph T)
    (hinv : ∀ i node, g.get? i = Option.some node → NodeInv i node) :
    ∀ m, m ≤ g.length →
      (List.range m).foldlM (forwardStep ops) g = .error .shape ∨
      ∃ g2, (List.range m).foldlM (forwardStep ops) g = .ok g2 ∧
        g2.length = g.length ∧
        (∀ i node, g2.get? i = Option.some node → NodeInv i node) ∧
        (∀ j, j < m → ∃ node v, g2.get? j = Option.some node ∧
          node.value = Option.some v) := by
  intro m
  induction m with
  | zero =>
    intro _
    right
    refine ⟨g, ?_, rfl, hinv, ?_⟩
    · simp [List.range_zero, List.foldlM_nil, pure, Except.pure]
    · intro j hj; omega
  | succ m ih =>
    intro hm
    rcases ih (by omega) with herr | ⟨g2, hok, hlen, hinv2, hvals⟩
    · left
      rw [List.range_succ, List.foldlM_append, herr]
      rfl
    · have hmlt : m < g2.length := by omega
      obtain ⟨node, hnode⟩ : ∃ node, g2.get? m = Option.some node := by
        cases hq : g2.get? m with
        | none => exact absurd (List.get?_eq_none.mp hq) (by omega)
        | some n => exact ⟨n, rfl⟩
      have hNI := hinv2 m node hnode
      have hnodeG : g2[m]? = Option.some node := by
        rw [← List.get?_eq_getElem?]; exact hnode
      rw [List.range_succ, List.foldlM_append, hok]
      cases hfunc : node.func with
      | none =>
        right
        refine ⟨g2, ?_, hlen, hinv2, ?_⟩
        · simp [List.foldlM_cons, List.foldlM_nil, forwardStep, hnode, hnodeG,
            hfunc, bind, Except.bind, pure, Except.pure]
        · intro j hj
          rcases Nat.lt_succ_iff_lt_or_eq.mp hj with h | h
          · exact hvals j h
          · subst h
            obtain ⟨-, v, hv⟩ := hNI.1 hfunc
            exact ⟨node, v, hnode, hv⟩
      | one f =>
        obtain ⟨hd1, -⟩ := hNI.2.1 f hfunc
        obtain ⟨nd, v, hnd, hv⟩ := hvals node.deps.1 hd1
        have hndG : g2[node.deps.1]? = Option.some nd := by
          rw [← List.get?_eq_getElem?]; exact hnd
        cases hof : oneForward ops f v with
        | error e =>
          left
          rw [oneForward_error ops f v e hof] at hof
          simp [List.foldlM_cons, List.foldlM_nil, forwardStep, hnode, hnodeG,
            hfunc, getNode, hnd, hndG, liftUsage, hv, hof, bind, Except.bind]
        | ok fv =>
          right
          refine ⟨g2.set m { node with func := Func.one fv.1, value := Option.some fv.2 }, ?_, ?_, ?_, ?_⟩
          · simp [List.foldlM_cons, List.foldlM_nil, forwardStep, hnode, hnodeG,
              hfunc, getNode, hnd, hndG, liftUsage, hv, hof, bind, Except.bind,
              pure, Except.pure]
          · simp [List.length_set, hlen]
          · intro i nd2 hget2
            by_cases him : i = m
            · subst him
              rw [List.get?_set_eq_of_lt _ hmlt] at hget2
              injection hget2 with hget2
              subst hget2
              refine ⟨fun hf => Func.noConfusion hf, ?_,
                fun f2 hf => Func.noConfusion hf⟩
              intro f2 _
              exact hNI.2.1 f hfunc
            · rw [List.get?_set_ne _ _ (fun h => him h.symm)] at hget2
              exact hinv2 i nd2 hget2
          · intro j hj
            by_cases hjm : j = m
            · subst hjm
              exact ⟨_, fv.2, List.get?_set_eq_of_lt _ hmlt, rfl⟩
            · have hjlt : j < m := by omega
              obtain ⟨nd2, v2, h1, h2⟩ := hvals j hjlt
              exact ⟨nd2, v2, by
                rw [List.get?_set_ne _ _ (fun h => hjm h.symm)]; exact h1, h2⟩
      | two f =>
        obtain ⟨hd1, hd2⟩ := hNI.2.2 f hfunc
        obtain ⟨nl, vl, hnl, hvl⟩ := hvals node.deps.1 hd1
        obtain ⟨nr, vr, hnr, hvr⟩ := hvals node.deps.2 hd2
        have hnlG : g2[node.deps.1]? = Option.some nl := by
          rw [← List.get?_eq_getElem?]; exact hnl
        have hnrG : g2[node.deps.2]? = Option.some nr := by
          rw [← List.get?_eq_getElem?]; exact hnr
        cases hof : twoForward ops f vl vr with
        | error e =>
          left
          rw [twoForward_error ops f vl vr e hof] at hof
          simp [List.foldlM_cons, List.foldlM_nil, forwardStep, hnode, hnodeG,
            hfunc, getNode, hnl, hnr, hnlG, hnrG, liftUsage, hvl, hvr, hof,
            bind, Except.bind]
        | ok fv =>
          right
          refine ⟨g2.set m { node with func := Func.two fv.1, value := Option.some fv.2 }, ?_, ?_, ?_, ?_⟩
          · simp [List.foldlM_cons, List.foldlM_nil, forwardStep, hnode, hnodeG,
              hfunc, getNode, hnl, hnr, hnlG, hnrG, liftUsage, hvl, hvr, hof,
              bind, Except.bind, pure, Except.pure]
          · simp [List.length_set, hlen]
          · intro i nd2 hget2
            by_cases him : i = m
            · subst him
              rw [List.get?_set_eq_of_lt _ hmlt] at hget2
              injection hget2 with hget2
              subst hget2
              refine ⟨fun hf => Func.noConfusion hf,
                fun f2 hf => Func.noConfusion hf, ?_⟩
              intro f2 _
              exact hNI.2.2 f hfunc
            · rw [List.get?_set_ne _ _ (fun h => him h.symm)] at hget2
              exact hinv2 i nd2 hget2
          · intro j hj
            by_cases hjm : j = m
            · subst hjm
              exact ⟨_, fv.2, List.get?_set_eq_of_lt _ hmlt, rfl⟩
            · have hjlt : j < m := by omega
              obtain ⟨nd2, v2, h1, h2⟩ := hvals j hjlt
              exact ⟨nd2, v2, by
                rw [List.get?_set_ne _ _ (fun h => hjm h.symm)]; exact h1, h2⟩

/-- C6: in every graph built purely by leaf creation and operator
application, leaves carry the self-loop sentinel, unary nodes reference one
strictly earlier node in both slots, binary nodes reference two strictly
earlier nodes; consequently creation order is a valid topological order and
a forward pass to any index in range never reads an absent value and never
indexes out of bounds (it can only stop with a numeric-kernel shape
error). -/
theorem C6_topological_invariant {T : Type} (steps : List (BuildStep T))
    (hv : validSteps 0 steps = true) :
    (∀ i node, (build steps).get? i = Option.some node →
      (node.func = Func.none → node.deps = (i, i)) ∧
      (∀ f, node.func = Func.one f → node.deps.1 < i ∧ node.deps.2 = node.deps.1) ∧
      (∀ f, node.func = Func.two f → node.deps.1 < i ∧ node.deps.2 < i)) ∧
    (∀ (ops : TensorOps T) (t : Nat), t < (build steps).length →
      Tensor.forward ops (build steps) t ≠ .error .usage ∧
      Tensor.forward ops (build steps) t ≠ .error .oob) := by
  have hbase : ∀ i node, ([] : Graph T).get? i = Option.some node → NodeInv i node := by
    intro i node h
    rw [List.get?_nil] at h
    exact Option.noConfusion h
  have hinv : ∀ i node, (build steps).get? i = Option.some node → NodeInv i node :=
    build_inv steps [] (by simpa using hv) hbase
  refine ⟨?_, ?_⟩
  · intro i node hget
    have h := hinv i node hget
    exact ⟨fun hf => (h.1 hf).1, h.2.1, h.2.2⟩
  · intro ops t ht
    rcases forward_fold_safe ops (build steps) hinv (t + 1) (by omega) with
      herr | ⟨g2, hok, -⟩
    · unfold Tensor.forward
      rw [herr]
      exact ⟨fun h => by injection h with h; exact Err.noConfusion h,
        fun h => by injection h with h; exact Err.noConfusion h⟩
    · unfold Tensor.forward
      rw [hok]
      exact ⟨fun h => Except.noConfusion h, fun h => Except.noConfusion h⟩

/-- Witness for C6 at scenario A: node 2 is a binary node with deps below
it, and forward to index 3 neither usage-errors nor oob-errors. -/
theorem C6_witness :
    validSteps 0 scenarioASteps = true ∧
    scenarioAGraph.get? 2 = Option.some (binNode .addOp 0 1) ∧
    ((binNode (T := NdArr) .addOp 0 1).deps.1 < 2 ∧
      (binNode (T := NdArr) .addOp 0 1).deps.2 < 2) ∧
    Tensor.forward opsNd scenarioAGraph 3 ≠ .error .usage ∧
    Tensor.forward opsNd scenarioAGraph 3 ≠ .error .oob := by
  refine ⟨by decide, by with_unfolding_all decide, ?_, ?_⟩
  · exact ((C6_topological_invariant scenarioASteps (by decide)).1 2
      (binNode .addOp 0 1) (by with_unfolding_all decide)).2.2 .addOp rfl
  · exact (C6_topological_invariant scenarioASteps (by decide)).2 opsNd 3
      (by with_unfolding_all decide)

/-! ## Claim C8 -/

/-- Bind on `Except` succeeds exactly when both stages succeed. -/
theorem bind_ok_iff {α β : Type} {x : Except Err α} {f : α → Except Err β}
    {b : β} : (x >>= f) = .ok b ↔ ∃ a, x = .ok a ∧ f a = .ok b := by
  cases x <;> simp [bind, Except.bind]

/-- `getNode` succeeds exactly on an in-range index. -/
theorem getNode_ok {T : Type} {ns : Graph T} {i : Nat} {n : Node T} :
    getNode ns i = .ok n ↔ ns.get? i = Option.some n := by
  unfold getNode
  cases h : ns.get? i <;> simp

/-- `liftUsage` succeeds exactly on a present value. -/
theorem liftUsage_ok {T : Type} {o : Option T} {v : T} :
    liftUsage o = .ok v ↔ o = Option.some v := by
  cases o <;> simp [liftUsage]

/-- Setting a position of a list to the element it already holds is the
identity. -/
theorem set_get_self {α : Type} :
    ∀ (l : List α) (i : Nat) (a : α), l.get? i = Option.some a → l.set i a = l
  | [], _, _, h => by rw [List.get?_nil] at h; exact Option.noConfusion h
  | b :: l, 0, a, h => by
    injection h with h
    rw [List.set_cons_zero, h]
  | b :: l, i + 1, a, h => by
    rw [List.set_cons_succ, set_get_self l i a h]

/-- A unary operation's forward pass ignores its cached state, so re-running
it on its own refreshed state reproduces the same output. -/
theorem oneForward_idem {T : Type} (ops : TensorOps T) (f : OneOp T) (v : T)
    (fv : OneOp T × T) (hof : oneForward ops f v = .ok fv) :
    oneForward ops fv.1 v = .ok fv := by
  cases f with
  | expMOp a r =>
    unfold oneForward at hof
    cases hm : ops.mul (ops.eye_like v) (ops.expm v) with
    | none =>
      simp only [hm, liftShape, bind, Except.bind] at hof
      exact Except.noConfusion hof
    | some o =>
      simp only [hm, liftShape, bind, Except.bind] at hof
      injection hof with hof
      subst hof
      simp [oneForward, hm, liftShape, bind, Except.bind]

/-- A binary operation's forward pass ignores its cached state. -/
theorem twoForward_idem {T : Type} (ops : TensorOps T) (f : TwoOp T) (v w : T)
    (fv : TwoOp T × T) (hof : twoForward ops f v w = .ok fv) :
    twoForward ops fv.1 v w = .ok fv := by
  cases f with
  | addOp =>
    unfold twoForward at hof
    cases hm : ops.add v w with
    | none =>
      simp only [hm, liftShape, bind, Except.bind] at hof
      exact Except.noConfusion hof
    | some o =>
      simp only [hm, liftShape, bind, Except.bind] at hof
      injection hof with hof
      subst hof
      simp [twoForward, hm, liftShape, bind, Except.bind]
  | mulOp x y =>
    unfold twoForward at hof
    cases hm : ops.mul v w with
    | none =>
      simp only [hm, liftShape, bind, Except.bind] at hof
      exact Except.noConfusion hof
    | some o =>
      simp only [hm, liftShape, bind, Except.bind] at hof
      injection hof with hof
      subst hof
      simp [twoForward, hm, liftShape, bind, Except.bind]
  | matMulOp x y =>
    unfold twoForward at hof
    cases hm : ops.matmul v w with
    | none =>
      simp only [hm, liftShape, bind, Except.bind] at hof
      exact Except.noConfusion hof
    | some o =>
      simp only [hm, liftShape, bind, Except.bind] at hof
      injection hof with hof
      subst hof
      simp [twoForward, hm, liftShape, bind, Except.bind]

/-- Unfolding `forwardStep` at a leaf node. -/
theorem forwardStep_none {T : Type} {ops : TensorOps T} {ns : Graph T}
    {i : Nat} {node : Node T} (h : ns.get? i = Option.some node)
    (hf : node.func = Func.none) : forwardStep ops ns i = .ok ns := by
  unfold forwardStep
  rw [h]
  simp only [hf]

/-- Unfolding `forwardStep` at a unary operation node. -/
theorem forwardStep_one {T : Type} {ops : TensorOps T} {ns : Graph T}
    {i : Nat} {node : Node T} {f : OneOp T} (h : ns.get? i = Option.some node)
    (hf : node.func = Func.one f) :
    forwardStep ops ns i = (do
      let n_l ← getNode ns node.deps.1
      let v_l ← liftUsage n_l.value
      let fv ← oneForward ops f v_l
      Except.ok (ns.set i { node with func := Func.one fv.1, value := Option.some fv.2 })) := by
  unfold forwardStep
  rw [h]
  simp only [hf]

/-- Unfolding `forwardStep` at a binary operation node. -/
theorem forwardStep_two {T : Type} {ops : TensorOps T} {ns : Graph T}
    {i : Nat} {node : Node T} {f : TwoOp T} (h : ns.get? i = Option.some node)
    (hf : node.func = Func.two f) :
    forwardStep ops ns i = (do
      let n_l ← getNode ns node.deps.1
      let v_l ← liftUsage n_l.value
      let n_r ← getNode ns node.deps.2
      let v_r ← liftUsage n_r.value
      let fv ← twoForward ops f v_l v_r
      Except.ok (ns.set i { node with func := Func.two fv.1, value := Option.some fv.2 })) := by
  unfold forwardStep
  rw [h]
  simp only [hf]

/-- `forwardStep` panics (out of bounds) at a missing index. -/
theorem forwardStep_oob {T : Type} {ops : TensorOps T} {ns : Graph T}
    {i : Nat} (h : ns.get? i = Option.none) :
    forwardStep ops ns i = .error .oob := by
  unfold forwardStep
  rw [h]

/-- A forward step at `i` that leaves a graph unchanged also leaves any
other graph unchanged that agrees with it at `i` and at the
dependencies of the node at `i`. -/
theorem forwardStep_congr {T : Type} {ops : TensorOps T} {ns ns2 : Graph T}
    {i : Nat} {node : Node T}
    (h1 : ns.get? i = Option.some node) (h2 : ns2.get? i = Option.some node)
    (hdep1 : ns2.get? node.deps.1 = ns.get? node.deps.1)
    (hdep2 : ns2.get? node.deps.2 = ns.get? node.deps.2)
    (hstep : forwardStep ops ns i = .ok ns) :
    forwardStep ops ns2 i = .ok ns2 := by
  cases hfunc : node.func with
  | none => exact forwardStep_none h2 hfunc
  | one f =>
    rw [forwardStep_one h1 hfunc] at hstep
    rw [forwardStep_one h2 hfunc]
    rcases bind_ok_iff.mp hstep with ⟨nd, hnd, hstep⟩
    rcases bind_ok_iff.mp hstep with ⟨v, hv, hstep⟩
    rcases bind_ok_iff.mp hstep with ⟨fv, hof, hstep⟩
    injection hstep with hstep
    have hnode_eq : { node with func := Func.one fv.1, value := Option.some fv.2 } = node := by
      have hlt : i < ns.length := (List.get?_eq_some.mp h1).1
      have hcast := congrArg (fun l => l.get? i) hstep
      simp only at hcast
      rw [List.get?_set_eq_of_lt _ hlt, h1] at hcast
      exact Option.some.inj hcast
    refine bind_ok_iff.mpr ⟨nd, ?_, ?_⟩
    · rw [getNode_ok] at hnd ⊢
      rw [hdep1]
      exact hnd
    refine bind_ok_iff.mpr ⟨v, hv, ?_⟩
    refine bind_ok_iff.mpr ⟨fv, hof, ?_⟩
    rw [hnode_eq, set_get_self ns2 i node h2]
  | two f =>
    rw [forwardStep_two h1 hfunc] at hstep
    rw [forwardStep_two h2 hfunc]
    rcases bind_ok_iff.mp hstep with ⟨nl, hnl, hstep⟩
    rcases bind_ok_iff.mp hstep with ⟨vl, hvl, hstep⟩
    rcases bind_ok_iff.mp hstep with ⟨nr, hnr, hstep⟩
    rcases bind_ok_iff.mp hstep with ⟨vr, hvr, hstep⟩
    rcases bind_ok_iff.mp hstep with ⟨fv, hof, hstep⟩
    injection hstep with hstep
    have hnode_eq : { node with func := Func.two fv.1, value := Option.some fv.2 } = node := by
      have hlt : i < ns.length := (List.get?_eq_some.mp h1).1
      have hcast := congrArg (fun l => l.get? i) hstep
      simp only at hcast
      rw [List.get?_set_eq_of_lt _ hlt, h1] at hcast
      exact Option.some.inj hcast
    refine bind_ok_iff.mpr ⟨nl, ?_, ?_⟩
    · rw [getNode_ok] at hnl ⊢
      rw [hdep1]
      exact hnl
    refine bind_ok_iff.mpr ⟨vl, hvl, ?_⟩
    refine bind_ok_iff.mpr ⟨nr, ?_, ?_⟩
    · rw [getNode_ok] at hnr ⊢
      rw [hdep2]
      exact hnr
    refine bind_ok_iff.mpr ⟨vr, hvr, ?_⟩
    refine bind_ok_iff.mpr ⟨fv, hof, ?_⟩
    rw [hnode_eq, set_get_self ns2 i node h2]

/-- Main induction for forward idempotence: a successful fold of
`forwardStep` over `0..m` preserves length and the topological invariant,
leaves indices `≥ m` untouched, and leaves every index `< m` *settled*: a
repeated step there returns the graph unchanged. -/
theorem forward_fold_settled {T : Type} (ops : TensorOps T) (g : Graph T)
    (hinv : ∀ i node, g.get? i = Option.some node → NodeInv i node) :
    ∀ m gm, (List.range m).foldlM (forwardStep ops) g = .ok gm →
      gm.length = g.length ∧
      (∀ i node, gm.get? i = Option.some node → NodeInv i node) ∧
      (∀ j, m ≤ j → gm.get? j = g.get? j) ∧
      (∀ i, i < m → forwardStep ops gm i = .ok gm) := by
  intro m
  induction m with
  | zero =>
    intro gm hfold
    simp only [List.range_zero, List.foldlM_nil, pure, Except.pure] at hfold
    injection hfold with hfold
    subst hfold
    exact ⟨rfl, hinv, fun _ _ => rfl, fun i hi => absurd hi (by omega)⟩
  | succ m ih =>
    intro gm hfold
    rw [List.range_succ, List.foldlM_append] at hfold
    rcases bind_ok_iff.mp hfold with ⟨gm1, hok, hstep⟩
    simp only [List.foldlM_cons, List.foldlM_nil, bind_pure] at hstep
    obtain ⟨hlen, hinv1, huntouched, hsettled⟩ := ih gm1 hok
    obtain ⟨node, hnodeg⟩ : ∃ node, gm1.get? m = Option.some node := by
      cases hq : gm1.get? m with
      | none =>
        exfalso
        rw [forwardStep_oob hq] at hstep
        exact Except.noConfusion hstep
      | some n => exact ⟨n, rfl⟩
    have hNI := hinv1 m node hnodeg
    have hmlt : m < gm1.length := (List.get?_eq_some.mp hnodeg).1
    -- transported settledness below `m` relies on: the step only changes
    -- index `m`, while node `i < m` reads positions `i` and deps `< i < m`
    have htransport : ∀ (gmx : Graph T),
        (∀ j, j ≠ m → gmx.get? j = gm1.get? j) →
        ∀ i, i < m → forwardStep ops gmx i = .ok gmx := by
      intro gmx hother i hi
      obtain ⟨ni, hni⟩ : ∃ ni, gm1.get? i = Option.some ni := by
        cases hq : gm1.get? i with
        | none =>
          exfalso
          have hs := hsettled i hi
          rw [forwardStep_oob hq] at hs
          exact Except.noConfusion hs
        | some n => exact ⟨n, rfl⟩
      have hNIi := hinv1 i ni hni
      have hdepslt : ni.deps.1 < m ∧ ni.deps.2 < m := by
        cases hfi : ni.func with
        | none =>
          obtain ⟨hd, -⟩ := hNIi.1 hfi
          rw [hd]
          exact ⟨by omega, by omega⟩
        | one f2 =>
          obtain ⟨ha, hb⟩ := hNIi.2.1 f2 hfi
          rw [hb]
          exact ⟨by omega, by omega⟩
        | two f2 =>
          obtain ⟨ha, hb⟩ := hNIi.2.2 f2 hfi
          exact ⟨by omega, by omega⟩
      refine forwardStep_congr hni ?_ ?_ ?_ (hsettled i hi)
      · rw [hother i (by omega)]
        exact hni
      · exact hother ni.deps.1 (by omega)
      · exact hother ni.deps.2 (by omega)
    cases hfunc : node.func with
    | none =>
      rw [forwardStep_none hnodeg hfunc] at hstep
      injection hstep with hstep
      subst hstep
      refine ⟨hlen, hinv1, fun j hj => huntouched j (by omega), ?_⟩
      intro i hi
      rcases Nat.lt_succ_iff_lt_or_eq.mp hi with h | h
      · exact hsettled i h
      · subst h
        exact forwardStep_none hnodeg hfunc
    | one f =>
      rw [forwardStep_one hnodeg hfunc] at hstep
      rcases bind_ok_iff.mp hstep with ⟨nd, hnd, hstep⟩
      rcases bind_ok_iff.mp hstep with ⟨v, hv, hstep⟩
      rcases bind_ok_iff.mp hstep with ⟨fv, hof, hstep⟩
      injection hstep with hstep
      rw [getNode_ok] at hnd
      rw [liftUsage_ok] at hv
      obtain ⟨hd1, -⟩ := hNI.2.1 f hfunc
      have hgm : gm = gm1.set m { node with func := Func.one fv.1, value := Option.some fv.2 } :=
        hstep.symm
      have hget_other : ∀ j, j ≠ m → gm.get? j = gm1.get? j := by
        intro j hj
        rw [hgm, List.get?_set_ne _ _ (fun h => hj h.symm)]
      have hget_m : gm.get? m =
          Option.some { node with func := Func.one fv.1, value := Option.some fv.2 } := by
        rw [hgm]
        exact List.get?_set_eq_of_lt _ hmlt
      have hinv2 : ∀ i nd2, gm.get? i = Option.some nd2 → NodeInv i nd2 := by
        intro i nd2 hget2
        by_cases him : i = m
        · subst him
          rw [hget_m] at hget2
          injection hget2 with hget2
          subst hget2
          exact ⟨fun hf => Func.noConfusion hf,
            fun f2 _ => hNI.2.1 f hfunc,
            fun f2 hf => Func.noConfusion hf⟩
        · rw [hget_other i him] at hget2
          exact hinv1 i nd2 hget2
      refine ⟨by rw [hgm, List.length_set, hlen], hinv2, ?_, ?_⟩
      · intro j hj
        rw [hget_other j (by omega)]
        exact huntouched j (by omega)
      · intro i hi
        rcases Nat.lt_succ_iff_lt_or_eq.mp hi with h | h
        · exact htransport gm hget_other i h
        · subst h
          rw [forwardStep_one hget_m rfl]
          refine bind_ok_iff.mpr ⟨nd, ?_, ?_⟩
          · rw [getNode_ok]
            rw [show ({ node with func := Func.one fv.1, value := Option.some fv.2 } : Node T).deps = node.deps from rfl]
            rw [hget_other node.deps.1 (by omega)]
            exact hnd
          refine bind_ok_iff.mpr ⟨v, liftUsage_ok.mpr hv, ?_⟩
          refine bind_ok_iff.mpr ⟨fv, oneForward_idem ops f v fv hof, ?_⟩
          rw [hgm, List.set_set]
    | two f =>
      rw [forwardStep_two hnodeg hfunc] at hstep
      rcases bind_ok_iff.mp hstep with ⟨nl, hnl, hstep⟩
      rcases bind_ok_iff.mp hstep with ⟨vl, hvl, hstep⟩
      rcases bind_ok_iff.mp hstep with ⟨nr, hnr, hstep⟩
      rcases bind_ok_iff.mp hstep with ⟨vr, hvr, hstep⟩
      rcases bind_ok_iff.mp hstep with ⟨fv, hof, hstep⟩
      injection hstep with hstep
      rw [getNode_ok] at hnl hnr
      rw [liftUsage_ok] at hvl hvr
      obtain ⟨hd1, hd2⟩ := hNI.2.2 f hfunc
      have hgm : gm = gm1.set m { node with func := Func.two fv.1, value := Option.some fv.2 } :=
        hstep.symm
      have hget_other : ∀ j, j ≠ m → gm.get? j = gm1.get? j := by
        intro j hj
        rw [hgm, List.get?_set_ne _ _ (fun h => hj h.symm)]
      have hget_m : gm.get? m =
          Option.some { node with func := Func.two fv.1, value := Option.some fv.2 } := by
        rw [hgm]
        exact List.get?_set_eq_of_lt _ hmlt
      have hinv2 : ∀ i nd2, gm.get? i = Option.some nd2 → NodeInv i nd2 := by
        intro i nd2 hget2
        by_cases him : i = m
        · subst him
          rw [hget_m] at hget2
          injection hget2 with hget2
          subst hget2
          exact ⟨fun hf => Func.noConfusion hf,
            fun f2 hf => Func.noConfusion hf,
            fun f2 _ => hNI.2.2 f hfunc⟩
        · rw [hget_other i him] at hget2
          exact hinv1 i nd2 hget2
      refine ⟨by rw [hgm, List.length_set, hlen], hinv2, ?_, ?_⟩
      · intro j hj
        rw [hget_other j (by omega)]
        exact huntouched j (by omega)
      · intro i hi
        rcases Nat.lt_succ_iff_lt_or_eq.mp hi with h | h
        · exact htransport gm hget_other i h
        · subst h
          rw [forwardStep_two hget_m rfl]
          refine bind_ok_iff.mpr ⟨nl, ?_, ?_⟩
          · rw [getNode_ok]
            rw [show ({ node with func := Func.two fv.1, value := Option.some fv.2 } : Node T).deps = node.deps from rfl]
            rw [hget_other node.deps.1 (by omega)]
            exact hnl
          refine bind_ok_iff.mpr ⟨vl, liftUsage_ok.mpr hvl, ?_⟩
          refine bind_ok_iff.mpr ⟨nr, ?_, ?_⟩
          · rw [getNode_ok]
            rw [show ({ node with func := Func.two fv.1, value := Option.some fv.2 } : Node T).deps = node.deps from rfl]
            rw [hget_other node.deps.2 (by omega)]
            exact hnr
          refine bind_ok_iff.mpr ⟨vr, liftUsage_ok.mpr hvr, ?_⟩
          refine bind_ok_iff.mpr ⟨fv, twoForward_idem ops f vl vr fv hof, ?_⟩
          rw [hgm, List.set_set]

/-- A fold of settled steps leaves the graph unchanged. -/
theorem fold_settled {T : Type} (ops : TensorOps T) (gm : Graph T) :
    ∀ m, (∀ i, i < m → forwardStep ops gm i = .ok gm) →
      (List.range m).foldlM (forwardStep ops) gm = .ok gm := by
  intro m
  induction m with
  | zero => intro _; simp [List.range_zero, List.foldlM_nil, pure, Except.pure]
  | succ m ih =>
    intro hs
    rw [List.range_succ, List.foldlM_append, ih (fun i hi => hs i (by omega))]
    simp only [List.foldlM_cons, List.foldlM_nil, bind, Except.bind,
      hs m (by omega), pure, Except.pure]

/-- C8: forward is idempotent.  On every graph built by leaf creation and
operator application, if a forward pass to target `t` succeeds and produces
the node list `g2`, re-running forward to the same target on `g2` succeeds
and returns `g2` itself — every node's value (indeed every field) is
identical after the second call. -/
theorem C8_forward_idempotent {T : Type} (ops : TensorOps T)
    (steps : List (BuildStep T)) (t : Nat) (g2 : Graph T)
    (hv : validSteps 0 steps = true)
    (h : Tensor.forward ops (build steps) t = .ok g2) :
    Tensor.forward ops g2 t = .ok g2 := by
  have hbase : ∀ i node, ([] : Graph T).get? i = Option.some node → NodeInv i node := by
    intro i node hq
    rw [List.get?_nil] at hq
    exact Option.noConfusion hq
  have hinv : ∀ i node, (build steps).get? i = Option.some node → NodeInv i node :=
    build_inv steps [] (by simpa using hv) hbase
  obtain ⟨-, -, -, hsettled⟩ :=
    forward_fold_settled ops (build steps) hinv (t + 1) g2 h
  exact fold_settled ops g2 (t + 1) hsettled

/-- The scenario A graph after its forward pass. -/
def scenarioAForwarded : Graph NdArr :=
  (Tensor.forward opsNd scenarioAGraph 3).toOption.getD []

/-- Witness for C8: re-running forward on the forwarded scenario A graph
returns it unchanged. -/
theorem C8_witness :
    validSteps 0 scenarioASteps = true ∧
    Tensor.forward opsNd scenarioAForwarded 3 = .ok scenarioAForwarded := by
  refine ⟨by decide, ?_⟩
  exact C8_forward_idempotent opsNd scenarioASteps 3 scenarioAForwarded
    (by decide) (by with_unfolding_all decide)

/-! ## Claim C7: amended theorem -/

/-- A forward fold never writes a gradient: if every node gradient is
absent before the fold, it is absent after it. -/
theorem forward_grads_none {T : Type} (ops : TensorOps T) :
    ∀ (m : Nat) (g g2 : Graph T),
      (List.range m).foldlM (forwardStep ops) g = .ok g2 →
      (∀ i node, g.get? i = Option.some node → node.grad = Option.none) →
      ∀ i node, g2.get? i = Option.some node → node.grad = Option.none
  | 0, g, g2, hfold, hg => by
    simp only [List.range_zero, List.foldlM_nil, pure, Except.pure] at hfold
    injection hfold with hfold
    subst hfold
    exact hg
  | m + 1, g, g2, hfold, hg => by
    rw [List.range_succ, List.foldlM_append] at hfold
    rcases bind_ok_iff.mp hfold with ⟨g1, hok, hstep⟩
    simp only [List.foldlM_cons, List.foldlM_nil, bind_pure] at hstep
    have hg1 := forward_grads_none ops m g g1 hok hg
    obtain ⟨node, hnode⟩ : ∃ node, g1.get? m = Option.some node := by
      cases hq : g1.get? m with
      | none =>
        exfalso
        rw [forwardStep_oob hq] at hstep
        exact Except.noConfusion hstep
      | some x => exact ⟨x, rfl⟩
    have hmlt : m < g1.length := (List.get?_eq_some.mp hnode).1
    cases hfc : node.func with
    | none =>
      rw [forwardStep_none hnode hfc] at hstep
      injection hstep with hstep
      subst hstep
      exact hg1
    | one f =>
      rw [forwardStep_one hnode hfc] at hstep
      rcases bind_ok_iff.mp hstep with ⟨nl, hnl, hstep⟩
      rcases bind_ok_iff.mp hstep with ⟨vl, hvl, hstep⟩
      rcases bind_ok_iff.mp hstep with ⟨fv, hfv, hstep⟩
      injection hstep with hstep
      subst hstep
      intro i node2 hget2
      by_cases him : i = m
      · subst him
        rw [List.get?_set_eq_of_lt _ hmlt] at hget2
        injection hget2 with hget2
        subst hget2
        simpa using hg1 _ node hnode
      · rw [List.get?_set_ne _ _ (fun h2 => him h2.symm)] at hget2
        exact hg1 i node2 hget2
    | two f =>
      rw [forwardStep_two hnode hfc] at hstep
      rcases bind_ok_iff.mp hstep with ⟨nl, hnl, hstep⟩
      rcases bind_ok_iff.mp hstep with ⟨vl, hvl, hstep⟩
      rcases bind_ok_iff.mp hstep with ⟨nr, hnr, hstep⟩
      rcases bind_ok_iff.mp hstep with ⟨vr, hvr, hstep⟩
      rcases bind_ok_iff.mp hstep with ⟨fv, hfv, hstep⟩
      injection hstep with hstep
      subst hstep
      intro i node2 hget2
      by_cases him : i = m
      · subst him
        rw [List.get?_set_eq_of_lt _ hmlt] at hget2
        injection hget2 with hget2
        subst hget2
        simpa using hg1 _ node hnode
      · rw [List.get?_set_ne _ _ (fun h2 => him h2.symm)] at hget2
        exact hg1 i node2 hget2

/-- C7 amended: `value()`/`grad()` never silently substitute a default.
On a freshly built graph, `value()` on an *operation* node fails with a
usage error and `grad()` on *every* node fails with a usage error; and
since a forward pass never writes gradients, `grad()` on every node still
fails with a usage error after any successful forward pass, until backward
has run.  (The one exception to the original claim is a leaf handle's
`value()`, which succeeds before any forward pass because `Graph::tensor`
stores the value at node creation.) -/
theorem C7_amended_read_before_compute {T : Type} (steps : List (BuildStep T)) :
    (∀ i node, (build steps).get? i = Option.some node →
      (node.func ≠ Func.none → Tensor.value (build steps) i = .error .usage) ∧
      Tensor.grad (build steps) i = .error .usage) ∧
    (∀ (ops : TensorOps T) (t : Nat) (g2 : Graph T),
      Tensor.forward ops (build steps) t = .ok g2 →
      ∀ i node, g2.get? i = Option.some node →
        Tensor.grad g2 i = .error .usage) := by
  have hbase : ∀ i node, ([] : Graph T).get? i = Option.some node →
      node.grad = Option.none ∧
      (node.func ≠ Func.none → node.value = Option.none) := by
    intro i node h
    rw [List.get?_nil] at h
    exact Option.noConfusion h
  constructor
  · intro i node hget
    have h := build_fresh steps [] hbase i node hget
    constructor
    · intro hf
      unfold Tensor.value
      simp only [getNode, hget, bind, Except.bind, h.2 hf, liftUsage]
    · unfold Tensor.grad
      simp only [getNode, hget, bind, Except.bind, h.1, liftUsage]
  · intro ops t g2 hfwd i node hget
    have hnone := forward_grads_none ops (t + 1) (build steps) g2 hfwd
      (fun i node h => (build_fresh steps [] hbase i node h).1) i node hget
    unfold Tensor.grad
    simp only [getNode, hget, bind, Except.bind, hnone, liftUsage]

/-- Witness for C7 amended: in the two-node graph `[leaf [1,2], add 0 0]`,
node 1 is an operation node and both accessors fail before any pass; and on
the forwarded scenario A graph, `grad()` at node 0 still fails with a usage
error before backward runs. -/
theorem C7_amended_witness :
    (build [BuildStep.leaf (vec2 1 2), BuildStep.addT 0 0]).get? 1 =
      Option.some witnessOpNode ∧
    Tensor.value (build [BuildStep.leaf (vec2 1 2), BuildStep.addT 0 0]) 1 =
      .error .usage ∧
    Tensor.grad (build [BuildStep.leaf (vec2 1 2), BuildStep.addT 0 0]) 1 =
      .error .usage ∧
    Tensor.forward opsNd (build scenarioASteps) 3 = .ok scenarioAForwarded ∧
    Tensor.grad scenarioAForwarded 0 = .error .usage := by
  refine ⟨by with_unfolding_all decide, ?_, ?_,
    by with_unfolding_all decide, ?_⟩
  · exact ((C7_amended_read_before_compute
      [BuildStep.leaf (vec2 1 2), BuildStep.addT 0 0]).1 1 witnessOpNode
      (by with_unfolding_all decide)).1 (by with_unfolding_all decide)
  · exact ((C7_amended_read_before_compute
      [BuildStep.leaf (vec2 1 2), BuildStep.addT 0 0]).1 1 witnessOpNode
      (by with_unfolding_all decide)).2
  · exact (C7_amended_read_before_compute scenarioASteps).2 opsNd 3
      scenarioAForwarded (by with_unfolding_all decide) 0
      { deps := (0, 0), func := Func.none, value := Option.some (vec2 1 2), grad := Option.none, ctx := (Option.none, Option.none) }
      (by with_unfolding_all decide)

/-! ## Claim C5 -/

/-- Indexing into a mapped range. -/
theorem getD_map_range (N x : Nat) (f : Nat → ℚ) (h : x < N) :
    ((List.range N).map f).getD x 0 = f x := by
  rw [List.getD_eq_get?, List.get?_map, List.get?_range h]
  rfl

/-- Row-major linear index of an in-range cell. -/
theorem rowmajor_lt {i j m n : Nat} (hi : i < m) (hj : j < n) :
    i * n + j < m * n := by
  have h1 : i * n + j < (i + 1) * n := by
    rw [Nat.succ_mul]
    omega
  have h2 : (i + 1) * n ≤ m * n := Nat.mul_le_mul_right n hi
  omega

/-- Division of a row-major index recovers the row. -/
theorem rowmajor_div {i j n : Nat} (hj : j < n) : (i * n + j) / n = i := by
  have hn : 0 < n := by omega
  rw [Nat.mul_comm i n, Nat.mul_add_div hn, Nat.div_eq_of_lt hj]
  omega

/-- Remainder of a row-major index recovers the column. -/
theorem rowmajor_mod {i j n : Nat} (hj : j < n) : (i * n + j) % n = j := by
  rw [Nat.mul_comm i n, Nat.mul_add_mod, Nat.mod_eq_of_lt hj]

/-- `matmul` on rank-2 operands with matching inner dimension succeeds with
the literal row-major product array. -/
theorem matmul_rank2 {m k n : Nat} {a b : NdArr}
    (ha : a.shape = [m, k]) (hb : b.shape = [k, n]) :
    NdArr.matmul a b = Option.some ⟨[m, n], (List.range (m * n)).map (fun l =>
      ((List.range k).map
        (fun s => a.entry k (l / n) s * b.entry n s (l % n))).sum)⟩ := by
  unfold NdArr.matmul
  rw [ha, hb]
  simp

/-- Entry formula of a successful `matmul`: the standard matrix product. -/
theorem matmul_entry {m k n : Nat} {a b c : NdArr}
    (ha : a.shape = [m, k]) (hb : b.shape = [k, n])
    (hc : NdArr.matmul a b = Option.some c) :
    c.shape = [m, n] ∧ c.data.length = m * n ∧
    ∀ i j, i < m → j < n → c.entry n i j =
      ((List.range k).map (fun l => a.entry k i l * b.entry n l j)).sum := by
  rw [matmul_rank2 ha hb] at hc
  injection hc with hc
  subst hc
  refine ⟨rfl, by simp, ?_⟩
  intro i j hi hj
  unfold NdArr.entry
  simp only
  rw [getD_map_range _ _ _ (rowmajor_lt hi hj), rowmajor_div hj, rowmajor_mod hj]

/-- `matmul` fails (rank panic) when either operand is not rank 2. -/
theorem matmul_rank_fail {a b : NdArr}
    (h : a.shape.length ≠ 2 ∨ b.shape.length ≠ 2) :
    NdArr.matmul a b = Option.none := by
  unfold NdArr.matmul
  split
  · rename_i m k k2 n ha hb
    exfalso
    rcases h with h | h
    · exact h (by rw [ha]; rfl)
    · exact h (by rw [hb]; rfl)
  · rfl

/-- `reversed_axes` on a rank-2 array: shape reversed, entries
transposed. -/
theorem t_rank2 {k n : Nat} {b : NdArr}
    (hb : b.shape = [k, n]) (_hlen : b.data.length = k * n) :
    (NdArr.t b).shape = [n, k] ∧ (NdArr.t b).data.length = n * k ∧
    ∀ i j, i < n → j < k → (NdArr.t b).entry k i j = b.entry n j i := by
  unfold NdArr.t
  rw [hb]
  refine ⟨rfl, by simp [Nat.mul_comm], ?_⟩
  intro i j hi hj
  unfold NdArr.entry
  simp only
  have hlt : i * k + j < k * n := by
    rw [Nat.mul_comm k n]
    exact rowmajor_lt hi hj
  have hprod : ([k, n] : List Nat).prod = k * n := by simp
  rw [hprod, getD_map_range _ _ _ hlt]
  have hk : 0 < k := by omega
  have hmi : multiIndex ([k, n].reverse) (i * k + j) = [i, j] := by
    simp only [List.reverse_cons, List.reverse_nil, List.nil_append,
      List.cons_append, multiIndex]
    simp [rowmajor_div hj, rowmajor_mod hj, Nat.mod_one]
  rw [hmi]
  have hfi : flatIndex [k, n] [j, i] = j * n + i := by
    simp [flatIndex]
  simp only [List.reverse_cons, List.reverse_nil, List.nil_append,
    List.cons_append]
  rw [hfi]

/-- C5: the MatMul shape contract.
(1) Forward fails with a shape error when either operand is not rank 2.
(2) For rank-2 `a : m×k` and `b : k×n`, forward succeeds, caches both
operands, and the output is the standard matrix product of shape `m×n`.
(3) Backward with incoming gradient `g : m×n` returns `g·bᵗ` in slot 0 and
`aᵗ·g` in slot 1, with the standard transposed-product entries. -/
theorem C5_matmul_shape_contract :
    (∀ (a b : NdArr) (x y : Option NdArr),
      a.shape.length ≠ 2 ∨ b.shape.length ≠ 2 →
      twoForward opsNd (.matMulOp x y) a b = .error .shape) ∧
    (∀ (m k n : Nat) (a b : NdArr) (x y : Option NdArr),
      a.shape = [m, k] → b.shape = [k, n] →
      ∃ c, NdArr.matmul a b = Option.some c ∧
        twoForward opsNd (.matMulOp x y) a b =
          .ok (.matMulOp (Option.some a) (Option.some b), c) ∧
        c.shape = [m, n] ∧ c.data.length = m * n ∧
        (∀ i j, i < m → j < n → c.entry n i j =
          ((List.range k).map (fun l => a.entry k i l * b.entry n l j)).sum)) ∧
    (∀ (m k n : Nat) (a b g : NdArr),
      a.shape = [m, k] → a.data.length = m * k →
      b.shape = [k, n] → b.data.length = k * n →
      g.shape = [m, n] →
      ∃ ga gb, twoBackward opsNd (.matMulOp (Option.some a) (Option.some b)) g =
          .ok (Option.some ga, Option.some gb) ∧
        ga.shape = [m, k] ∧ gb.shape = [k, n] ∧
        (∀ i j, i < m → j < k → ga.entry k i j =
          ((List.range n).map (fun l => g.entry n i l * b.entry n j l)).sum) ∧
        (∀ i j, i < k → j < n → gb.entry n i j =
          ((List.range m).map (fun l => a.entry k l i * g.entry n l j)).sum)) := by
  refine ⟨?_, ?_, ?_⟩
  · intro a b x y h
    simp only [twoForward]
    rw [show (opsNd.matmul a b) = NdArr.matmul a b from rfl,
      matmul_rank_fail h]
    rfl
  · intro m k n a b x y ha hb
    obtain ⟨c, hc⟩ : ∃ c, NdArr.matmul a b = Option.some c :=
      ⟨_, matmul_rank2 ha hb⟩
    obtain ⟨hcs, hcl, hce⟩ := matmul_entry ha hb hc
    refine ⟨c, hc, ?_, hcs, hcl, hce⟩
    simp only [twoForward]
    rw [show (opsNd.matmul a b) = NdArr.matmul a b from rfl, hc]
    rfl
  · intro m k n a b g ha halen hb hblen hg
    obtain ⟨hts, htl, hte⟩ := t_rank2 hb hblen
    obtain ⟨hts2, htl2, hte2⟩ := t_rank2 ha halen
    obtain ⟨ga, hga⟩ : ∃ ga, NdArr.matmul g (NdArr.t b) = Option.some ga :=
      ⟨_, matmul_rank2 hg hts⟩
    obtain ⟨gb, hgb⟩ : ∃ gb, NdArr.matmul (NdArr.t a) g = Option.some gb :=
      ⟨_, matmul_rank2 hts2 hg⟩
    obtain ⟨hgas, hgal, hgae⟩ := matmul_entry hg hts hga
    obtain ⟨hgbs, hgbl, hgbe⟩ := matmul_entry hts2 hg hgb
    refine ⟨ga, gb, ?_, hgas, hgbs, ?_, ?_⟩
    · unfold twoBackward
      simp only [liftUsage, liftShape, bind, Except.bind]
      rw [show (opsNd.t b) = NdArr.t b from rfl,
        show (opsNd.t a) = NdArr.t a from rfl,
        show (opsNd.matmul g (NdArr.t b)) = NdArr.matmul g (NdArr.t b) from rfl,
        show (opsNd.matmul (NdArr.t a) g) = NdArr.matmul (NdArr.t a) g from rfl,
        hga, hgb]
    · intro i j hi hj
      rw [hgae i j hi hj]
      congr 1
      refine List.map_congr_left ?_
      intro l hl
      rw [hte l j (List.mem_range.mp hl) hj]
    · intro i j hi hj
      rw [hgbe i j hi hj]
      congr 1
      refine List.map_congr_left ?_
      intro l hl
      rw [hte2 i l hi (List.mem_range.mp hl)]

/-- Witness for C5 at concrete inputs: rank-1 operands make forward panic
with a shape error; `[[1,2],[3,4]]·[[5,6],[7,8]] = [[19,22],[43,50]]`; and
backward at the identity gradient returns `g·bᵗ` and `aᵗ·g`. -/
theorem C5_witness :
    twoForward opsNd (.matMulOp Option.none Option.none) (vec2 1 2) (vec2 3 4) =
      .error .shape ∧
    twoForward opsNd (.matMulOp Option.none Option.none)
      (mat2 1 2 3 4) (mat2 5 6 7 8) =
      .ok (.matMulOp (Option.some (mat2 1 2 3 4)) (Option.some (mat2 5 6 7 8)),
        mat2 19 22 43 50) ∧
    twoBackward opsNd
      (.matMulOp (Option.some (mat2 1 2 3 4)) (Option.some (mat2 5 6 7 8)))
      (mat2 1 0 0 1) =
      .ok (Option.some (mat2 5 7 6 8), Option.some (mat2 1 3 2 4)) := by
  refine ⟨C5_matmul_shape_contract.1 (vec2 1 2) (vec2 3 4) Option.none Option.none
    (by decide), ?_, ?_⟩
  · obtain ⟨c, hc, hfw, -⟩ := C5_matmul_shape_contract.2.1 2 2 2
      (mat2 1 2 3 4) (mat2 5 6 7 8) Option.none Option.none rfl rfl
    have hceq : Option.some c = Option.some (mat2 19 22 43 50) := by
      rw [← hc]
      with_unfolding_all decide
    cases Option.some.inj hceq
    exact hfw
  · obtain ⟨ga, gb, hbw, -⟩ := C5_matmul_shape_contract.2.2 2 2 2
      (mat2 1 2 3 4) (mat2 5 6 7 8) (mat2 1 0 0 1) rfl rfl rfl rfl rfl
    with_unfolding_all decide

/-! ## Claim C3: amended theorem -/

/-- The engine's commutator closure instantiated at the host backend is the
spec's commutator. -/
theorem commu_eq_specCommu (a b : NdArr) : commu opsNd a b = specCommu a b := rfl

/-- Elementwise kernels on equal shapes succeed with the zipped data. -/
theorem ewise_eq {s : List Nat} {f : ℚ → ℚ → ℚ} {a b : NdArr}
    (ha : a.shape = s) (hb : b.shape = s) :
    ewise f a b = Option.some ⟨s, List.zipWith f a.data b.data⟩ := by
  unfold ewise
  rw [ha, hb]
  simp

/-- Zipping a list with a same-length constant list is a map. -/
theorem zipWith_replicate_right (f : ℚ → ℚ → ℚ) (c : ℚ) :
    ∀ (l : List ℚ) (N : Nat), l.length = N →
      List.zipWith f l (List.replicate N c) = l.map (fun t => f t c)
  | [], _, h => by subst h; rfl
  | x :: l, N, h => by
    subst h
    simp only [List.length_cons, List.replicate_succ, List.zipWith_cons_cons,
      List.map_cons]
    rw [zipWith_replicate_right f c l l.length rfl]

/-- The commutator of two square `n×n` arrays is a square `n×n` array. -/
theorem specCommu_sq {n : Nat} {a p : NdArr}
    (ha : a.shape = [n, n]) (hp : p.shape = [n, n]) :
    ∃ c, specCommu a p = Option.some c ∧ c.shape = [n, n] ∧
      c.data.length = n * n := by
  obtain ⟨x, hx⟩ : ∃ x, NdArr.matmul a p = Option.some x := ⟨_, matmul_rank2 ha hp⟩
  obtain ⟨hxs, hxl, -⟩ := matmul_entry ha hp hx
  obtain ⟨y, hy⟩ : ∃ y, NdArr.matmul p a = Option.some y := ⟨_, matmul_rank2 hp ha⟩
  obtain ⟨hys, hyl, -⟩ := matmul_entry hp ha hy
  refine ⟨⟨[n, n], List.zipWith (· - ·) x.data y.data⟩, ?_, rfl, ?_⟩
  · unfold specCommu
    rw [hx, hy]
    simp only [bind, Option.bind]
    exact ewise_eq hxs hys
  · simp only [List.length_zipWith, hxl, hyl, Nat.min_self]

/-- Coefficient discipline: `coeff o` inverts the signed running factorial
`factor(o) * (fact * o)` that the code divides by at order `o`, all along
the loop list. -/
def CoeffOk (coeff : Nat → ℚ) : Int → List Nat → Prop
  | _, [] => True
  | fact, o :: os =>
    coeff o = ((((if o % 2 == 0 then (-1 : Int) else 1) * (fact * o) : Int) : ℚ))⁻¹ ∧
    CoeffOk coeff (fact * o) os

/-- The code's division-by-constant-array loop computes exactly the spec's
scalar-coefficient series, step for step, whenever the coefficients invert
the signed factorials. -/
theorem expMLoop_eq_specSeries {n : Nat} {a : NdArr} (coeff : Nat → ℚ)
    (ha : a.shape = [n, n]) :
    ∀ (os : List Nat) (p total : NdArr) (fact : Int),
      CoeffOk coeff fact os →
      p.shape = [n, n] → p.data.length = n * n →
      total.shape = [n, n] →
      ∃ p2 total2, expMLoop opsNd a os p total fact = .ok (p2, total2) ∧
        specSeries coeff a os p total = Option.some total2 ∧
        total2.shape = [n, n]
  | [], p, total, fact, _, _, _, htot => ⟨p, total, rfl, rfl, htot⟩
  | o :: os, p, total, fact, hco, hp, hpl, htot => by
    obtain ⟨c, hc, hcs, hcl⟩ := specCommu_sq ha hp
    have hval : NdArr.val_like a
        ((((if o % 2 == 0 then (-1 : Int) else 1) * (fact * o) : Int) : ℚ)) =
        ⟨[n, n], List.replicate (n * n)
          ((((if o % 2 == 0 then (-1 : Int) else 1) * (fact * o) : Int) : ℚ))⟩ := by
      unfold NdArr.val_like
      rw [ha]
      simp
    set v : ℚ := (((if o % 2 == 0 then (-1 : Int) else 1) * (fact * o) : Int) : ℚ) with hv
    have hdiv : opsNd.div c (opsNd.val_like a v) =
        Option.some ⟨[n, n], c.data.map (fun t => t / v)⟩ := by
      rw [show opsNd.val_like a v = NdArr.val_like a v from rfl,
        show opsNd.div = ewise (· / ·) from rfl, hval,
        ewise_eq hcs (s := [n, n]) rfl]
      simp only
      rw [zipWith_replicate_right _ _ _ _ hcl]
    have hsmul : (⟨[n, n], c.data.map (fun t => t / v)⟩ : NdArr) =
        NdArr.smul (coeff o) c := by
      unfold NdArr.smul
      rw [hcs]
      congr 1
      refine List.map_congr_left ?_
      intro t _
      rw [hco.1, ← hv, div_eq_mul_inv, mul_comm]
    have hsmul_shape : (NdArr.smul (coeff o) c).shape = [n, n] := by
      unfold NdArr.smul
      rw [hcs]
    have hadd : ewise (· + ·) total (NdArr.smul (coeff o) c) =
        Option.some ⟨[n, n],
          List.zipWith (· + ·) total.data (NdArr.smul (coeff o) c).data⟩ :=
      ewise_eq htot hsmul_shape
    have htot2_len :
        (⟨[n, n], List.zipWith (· + ·) total.data
          (NdArr.smul (coeff o) c).data⟩ : NdArr).shape = [n, n] := rfl
    obtain ⟨p2, total2, hloop, hspec, htot2sq⟩ := expMLoop_eq_specSeries coeff ha os c
      (⟨[n, n], List.zipWith (· + ·) total.data (NdArr.smul (coeff o) c).data⟩)
      (fact * o) hco.2 hcs hcl htot2_len
    refine ⟨p2, total2, ?_, ?_, htot2sq⟩
    · unfold expMLoop
      rw [commu_eq_specCommu, hc]
      simp only
      rw [← hv, hdiv]
      simp only
      rw [hsmul,
        show opsNd.add total (NdArr.smul (coeff o) c) =
          ewise (· + ·) total (NdArr.smul (coeff o) c) from rfl, hadd]
      simp only
      exact hloop
    · unfold specSeries
      rw [hc]
      simp only [bind, Option.bind]
      rw [hadd]
      exact hspec

/-- The amended coefficients satisfy the discipline along the code's loop
list `[2, 3, 4, 5, 6]` starting from factorial 1. -/
theorem amended_coeff_ok :
    CoeffOk (fun k => (-1) ^ (k + 1) / (Nat.factorial k : ℚ)) 1 [2, 3, 4, 5, 6] := by
  refine ⟨?_, ?_, ?_, ?_, ?_, trivial⟩ <;> norm_num [Nat.factorial]

/-- C3 amended.  (1) `ExpM::forward` caches its input and the output
`eye ⊙ exp(a)`.  (2) For square inputs, `ExpM::backward` computes the
truncated commutator series with `C₀ = g`, `Cₖ = a·Cₖ₋₁ − Cₖ₋₁·a` for
`k = 2..6`, and `total = g + Σₖ (−1)ᵏ⁺¹/k! · Cₖ` — the `k`-th term carries
sign `(−1)ᵏ⁺¹` (negative for even `k`), not `(−1)ᵏ` — and returns
`res · total` as the sole partial gradient (slot 1 is `None`). -/
theorem C3_amended_expm_backward_series :
    (∀ (expS : ℚ → ℚ) (x y : Option NdArr) (v t_out : NdArr),
      (ndOps expS).mul ((ndOps expS).eye_like v) ((ndOps expS).expm v) =
        Option.some t_out →
      oneForward (ndOps expS) (.expMOp x y) v =
        .ok (.expMOp (Option.some v) (Option.some t_out), t_out)) ∧
    (∀ (n : Nat) (a res g : NdArr),
      a.shape = [n, n] → a.data.length = n * n →
      res.shape = [n, n] →
      g.shape = [n, n] → g.data.length = n * n →
      ∃ total out, amendedExpMTotal a g = Option.some total ∧
        NdArr.matmul res total = Option.some out ∧
        oneBackward opsNd (.expMOp (Option.some a) (Option.some res)) g =
          .ok (Option.some out, Option.none)) := by
  constructor
  · intro expS x y v t_out h
    simp only [oneForward]
    simp only [h, liftShape, bind, Except.bind]
  · intro n a res g ha hal hres hg hgl
    obtain ⟨p2, total2, hloop, hspec, htot2sq⟩ :=
      expMLoop_eq_specSeries (a := a)
        (fun k => (-1) ^ (k + 1) / (Nat.factorial k : ℚ)) ha
        [2, 3, 4, 5, 6] g g 1 amended_coeff_ok hg hgl hg
    obtain ⟨out, hout⟩ : ∃ out, NdArr.matmul res total2 = Option.some out :=
      ⟨_, matmul_rank2 hres htot2sq⟩
    refine ⟨total2, out, hspec, hout, ?_⟩
    simp only [oneBackward, hloop]
    rw [show opsNd.matmul res total2 = NdArr.matmul res total2 from rfl, hout]

/-- Witness for C3 amended at the counterexample inputs: the corrected
series reproduces the code's output `[[−1/2,−1/3],[1,1/2]]`, and forward at
`cexA` caches `eye ⊙ exp(cexA)`. -/
theorem C3_amended_witness :
    amendedExpMTotal cexA cexG = Option.some (mat2 (-1/2) (-1/3) 1 (1/2)) ∧
    oneBackward opsNd (.expMOp (Option.some cexA) (Option.some cexEye)) cexG =
      .ok (Option.some (mat2 (-1/2) (-1/3) 1 (1/2)), Option.none) ∧
    oneForward (ndOps id) (.expMOp Option.none Option.none) cexA =
      .ok (.expMOp (Option.some cexA) (Option.some (mat2 0 0 0 0)), mat2 0 0 0 0) := by
  obtain ⟨total, out, hspec, hout, hbw⟩ :=
    C3_amended_expm_backward_series.2 2 cexA cexEye cexG (by decide) (by decide)
      (by decide) (by decide) (by decide)
  exact ⟨by with_unfolding_all decide, by with_unfolding_all decide,
    C3_amended_expm_backward_series.1 id Option.none Option.none cexA
      (mat2 0 0 0 0) (by with_unfolding_all decide)⟩

end RustGrad
